import Mathlib

/-!
Verification development for the `prompt-diff` semantic prompt-template
differ (`src/prompt_diff/parser.py` and `src/prompt_diff/differ.py`).

The Python code is shallowly embedded: strings are `List Char`, Python
`float` similarity ratios are modelled as exact rationals `ℚ`
(`difflib`'s ratio is `2.0 * matches / (la + lb)`, an exact rational of
small integers), Python `dict` metadata is modelled as a record with one
optional field per key the code ever writes, and Python `set` becomes
`Finset`.  Regular expressions are hand-compiled to deterministic
matchers that implement the exact pattern semantics (leftmost match,
greedy/lazy quantifiers and ordered alternation as in `re`), documented
at each definition.
-/

namespace PromptDiff

/-- ASCII whitespace recognized by Python's `str.strip()` / regex `\s`
(the inputs considered here are ASCII). -/
def pySpace (c : Char) : Bool :=
  c = ' ' || c = '\t' || c = '\n' || c = '\r' || c = '\x0b' || c = '\x0c'

/-- Python `str.strip()`. -/
def pyStrip (s : List Char) : List Char :=
  ((s.dropWhile pySpace).reverse.dropWhile pySpace).reverse

/-- Python `str.lower()` (ASCII). -/
def pyLower (s : List Char) : List Char :=
  s.map Char.toLower

/-- Python `str.startswith(p)`. -/
def startsW : List Char → List Char → Bool
  | [], _ => true
  | _ :: _, [] => false
  | p :: ps, c :: cs => p = c && startsW ps cs

/-- Python `text.split('\n')`; `"".split('\n') == [""]`. -/
def splitNl : List Char → List (List Char)
  | [] => [[]]
  | c :: t =>
    match splitNl t with
    | [] => [[c]]
    | h :: rest => if c = '\n' then [] :: h :: rest else (c :: h) :: rest

/-- Python `'\n'.join(lines)`. -/
def joinNl (ls : List (List Char)) : List Char :=
  List.intercalate ['\n'] ls

/-- Python `str.lstrip('#/ ')` as used for comment content. -/
def lstripCommentMarks (s : List Char) : List Char :=
  s.dropWhile (fun c => c = '#' || c = '/' || c = ' ')

/-! ### Data model (`parser.py`: `PromptType`, `PromptElement`) -/

/-- `PromptType` enumeration from `parser.py`. -/
inductive PromptType where
  | TEXT
  | VARIABLE
  | INSTRUCTION
  | EXAMPLE
  | ROLE
  | COMMENT
  | WHITESPACE
deriving DecidableEq

open PromptType

/-- The open `metadata` dict of `PromptElement`; the code only ever
writes the keys `syntax` (field `syn`), `role`, and `variables`
(field `vars`). A `none` field is an absent key. -/
structure Meta where
  syn : Option (List Char) := none
  role : Option (List Char) := none
  vars : Option (List (List Char)) := none
deriving DecidableEq

/-- `PromptElement` dataclass from `parser.py`. -/
structure PromptElement where
  type : PromptType
  content : List Char
  lineStart : Nat
  lineEnd : Nat
  raw : List Char
  metadata : Meta
deriving DecidableEq

/-! ### Line classifiers (`parser.py`) -/

/-- `INSTRUCTION_KEYWORDS` from `parser.py` (including the mojibake
bullet literal present in the source). -/
def INSTRUCTION_KEYWORDS : List (List Char) :=
  ["you are", "you must", "you should", "you will", "you can",
   "do not", "don't", "never", "always", "ensure", "make sure",
   "remember", "note:", "important:", "warning:", "caution:",
   "rule:", "constraint:", "requirement:", "instruction:",
   "task:", "goal:", "objective:", "purpose:",
   "format:", "output:", "respond", "reply", "answer",
   "think", "analyze", "consider", "evaluate",
   "step 1", "step 2", "first,", "then,", "finally,", "next,",
   "1.", "2.", "3.", "4.", "5.",
   "-", "*", "â€¢"].map String.data

/-- `is_instruction_line`: the lowered, stripped line starts with one of
the instruction keywords. -/
def isInstructionLine (line : List Char) : Bool :=
  let ll := pyStrip (pyLower line)
  INSTRUCTION_KEYWORDS.any (fun kw => startsW kw ll)

/-- The role words of the first `ROLE_PATTERNS` regex
`^(system|user|assistant|human|ai|bot):\s*`, in alternation order. -/
def roleWordsColon : List (List Char) :=
  ["system", "user", "assistant", "human", "ai", "bot"].map String.data

/-- The role words of the bracketed `ROLE_PATTERNS` regexes
`^<(system|user|assistant|human|ai)>` and `^[...]`. -/
def roleWordsBracket : List (List Char) :=
  ["system", "user", "assistant", "human", "ai"].map String.data

/-- `is_role_marker`: case-insensitive anchored match of the three
`ROLE_PATTERNS` regexes in order; returns the lowercased role word.
`\s*` after the colon always matches, so only the prefix matters. -/
def roleMarker (line : List Char) : Option (List Char) :=
  let ll := pyLower line
  match roleWordsColon.find? (fun w => startsW (w ++ [':']) ll) with
  | some w => some w
  | none =>
    match roleWordsBracket.find? (fun w => startsW ('<' :: w ++ ['>']) ll) with
    | some w => some w
    | none =>
      match roleWordsBracket.find? (fun w => startsW ('[' :: w ++ [']']) ll) with
      | some w => some w
      | none => none

/-- Regex `\s*` then `\d*` then `:?` then `\s*` then end-of-string:
the tail of `^example\s*\d*:?\s*$` after the literal. -/
def exampleTail (s : List Char) : Bool :=
  let s1 := s.dropWhile pySpace
  let s2 := s1.dropWhile Char.isDigit
  let s3 := match s2 with
            | ':' :: r => r
            | r => r
  (s3.dropWhile pySpace).isEmpty

/-- A literal marker regex `^word:\s*$`: the string is `word:` followed
only by whitespace. -/
def literalColonMarker (w : List Char) (s : List Char) : Bool :=
  startsW (w ++ [':']) s && ((s.drop (w.length + 1)).dropWhile pySpace).isEmpty

/-- `is_example_marker`: `EXAMPLE_PATTERNS` matched (anchored,
case-insensitive) against the lowered stripped line. -/
def isExampleMarker (line : List Char) : Bool :=
  let ll := pyStrip (pyLower line)
  (startsW "example".data ll && exampleTail (ll.drop 7)) ||
  literalColonMarker "input".data ll ||
  literalColonMarker "output".data ll ||
  literalColonMarker "expected".data ll ||
  literalColonMarker "sample".data ll ||
  startsW "```".data ll

/-! ### Variable extraction (`parser.py`: `VARIABLE_PATTERNS`,
`extract_variables`, `detect_template_syntax`)

Each regex of `VARIABLE_PATTERNS` is hand-compiled to a matcher
`List Char → Option (group1 chars × match length)` that is attempted at
each position; `re.finditer` semantics (leftmost, non-overlapping,
resume at match end) are provided by `scanPos`. -/

/-- Regex class `[a-zA-Z_]`. -/
def identStart (c : Char) : Bool := c.isAlpha || c = '_'

/-- Regex class `[a-zA-Z0-9_]`. -/
def identCont (c : Char) : Bool := c.isAlphanum || c = '_'

/-- Regex class `[a-zA-Z0-9_.]`. -/
def identContDot (c : Char) : Bool := c.isAlphanum || c = '_' || c = '.'

/-- Regex class `[A-Z_]`. -/
def upperStart (c : Char) : Bool := c.isUpper || c = '_'

/-- Regex class `[A-Z0-9_]`. -/
def upperDigitCont (c : Char) : Bool := c.isUpper || c.isDigit || c = '_'

/-- Length of the leading `\s*`. -/
def spacesLen (s : List Char) : Nat := (s.takeWhile pySpace).length

/-- Greedy `start cont*` identifier; returns (identifier, rest). -/
def takeIdentWith (start cont : Char → Bool) : List Char → Option (List Char × List Char)
  | [] => none
  | c :: r =>
    if start c then
      let tl := r.takeWhile cont
      some (c :: tl, r.drop tl.length)
    else none

/-- `[a-zA-Z_][a-zA-Z0-9_]*`. -/
def takeIdent : List Char → Option (List Char × List Char) :=
  takeIdentWith identStart identCont

/-- The `(?:\s*\|\s*[a-zA-Z_][a-zA-Z0-9_]*)*` loop of the jinja2
pattern: returns (consumed length, rest); a failed iteration is
abandoned (backtracking restores its characters). -/
def pipeLoop : Nat → List Char → Nat × List Char
  | 0, r => (0, r)
  | fuel + 1, r =>
    let a := spacesLen r
    match r.drop a with
    | '|' :: r2 =>
      let b := spacesLen r2
      match takeIdent (r2.drop b) with
      | some (idn, r3) =>
        let (m, r4) := pipeLoop fuel r3
        (a + 1 + b + idn.length + m, r4)
      | none => (0, r)
    | _ => (0, r)

/-- `\{\{\s*([a-zA-Z_][a-zA-Z0-9_]*(?:\s*\|\s*[a-zA-Z_][a-zA-Z0-9_]*)*)\s*\}\}`. -/
def matchJinja2 : List Char → Option (List Char × Nat)
  | '{' :: '{' :: r =>
    let s1 := spacesLen r
    let r1 := r.drop s1
    match takeIdent r1 with
    | none => none
    | some (id0, r2) =>
      let (g, r3) := pipeLoop r2.length r2
      let s2 := spacesLen r3
      match r3.drop s2 with
      | '}' :: '}' :: _ => some (r1.take (id0.length + g), 2 + s1 + id0.length + g + s2 + 2)
      | _ => none
  | _ => none

/-- `\{%\s*([a-zA-Z_]+(?:\s+[^%]+)?)\s*%\}`: the optional
`\s+[^%]+` group (with the trailing `\s*`) matches exactly when the
text after the name starts with whitespace and the run up to the first
`%` has length at least two; none of `\s`/`[^%]` can cross a `%`. -/
def matchJinjaBlock : List Char → Option (List Char × Nat)
  | '{' :: '%' :: r =>
    let s1 := spacesLen r
    let r1 := r.drop s1
    let nm := r1.takeWhile (fun c => c.isAlpha || c = '_')
    if nm.isEmpty then none
    else
      let r2 := r1.drop nm.length
      let m := (r2.takeWhile (fun c => c ≠ '%')).length
      if (match r2 with | c :: _ => pySpace c | [] => false) && 2 ≤ m &&
          startsW "%\x7d".data (r2.drop m) then
        some (nm ++ r2.take m, 2 + s1 + nm.length + m + 2)
      else
        let s2 := spacesLen r2
        if startsW "%\x7d".data (r2.drop s2) then
          some (nm, 2 + s1 + nm.length + s2 + 2)
        else none
  | _ => none

/-- Body of the mustache pattern after the opening braces:
`\s*([a-zA-Z_][a-zA-Z0-9_.]*)\s*\}\}\}?` with greedy trailing `\}?`. -/
def mustacheBody (opened : Nat) (b : List Char) : Option (List Char × Nat) :=
  let s1 := spacesLen b
  match takeIdentWith identStart identContDot (b.drop s1) with
  | none => none
  | some (id0, r2) =>
    let s2 := spacesLen r2
    match r2.drop s2 with
    | '}' :: '}' :: rest =>
      let extra := match rest with | '}' :: _ => 1 | _ => 0
      some (id0, opened + s1 + id0.length + s2 + 2 + extra)
    | _ => none

/-- `\{\{\{?\s*([a-zA-Z_][a-zA-Z0-9_.]*)\s*\}\}\}?`: the greedy `\{?`
first tries to consume a third brace, backtracking to the two-brace
reading if the rest of the pattern fails. -/
def matchMustache : List Char → Option (List Char × Nat)
  | '{' :: '{' :: r =>
    match r with
    | '{' :: r2 =>
      match mustacheBody 3 r2 with
      | some res => some res
      | none => mustacheBody 2 r
    | _ => mustacheBody 2 r
  | _ => none

/-- `\{([a-zA-Z_][a-zA-Z0-9_]*)(?::[^}]*)?\}`. -/
def matchFstring : List Char → Option (List Char × Nat)
  | '{' :: r =>
    match takeIdent r with
    | none => none
    | some (id0, r2) =>
      match r2 with
      | ':' :: r3 =>
        let body := r3.takeWhile (fun c => c ≠ '}')
        match r3.drop body.length with
        | '}' :: _ => some (id0, 1 + id0.length + 1 + body.length + 1)
        | _ => none
      | '}' :: _ => some (id0, 1 + id0.length + 1)
      | _ => none
  | _ => none

/-- `\$\{([a-zA-Z_][a-zA-Z0-9_]*)\}`. -/
def matchShellBrace : List Char → Option (List Char × Nat)
  | '$' :: '{' :: r =>
    match takeIdent r with
    | some (id0, '}' :: _) => some (id0, 2 + id0.length + 1)
    | _ => none
  | _ => none

/-- `\$([a-zA-Z_][a-zA-Z0-9_]*)`. -/
def matchShell : List Char → Option (List Char × Nat)
  | '$' :: r =>
    match takeIdent r with
    | some (id0, _) => some (id0, 1 + id0.length)
    | _ => none
  | _ => none

/-- `<([A-Z_][A-Z0-9_]*)(?:\s*/>|>)`: ordered alternation, `>` is only
tried directly after the name (no `\s*`); shortening the greedy name
never helps since a name character matches neither alternative. -/
def matchXmlVar : List Char → Option (List Char × Nat)
  | '<' :: r =>
    match takeIdentWith upperStart upperDigitCont r with
    | none => none
    | some (id0, r2) =>
      let s := spacesLen r2
      if startsW "/>".data (r2.drop s) then some (id0, 1 + id0.length + s + 2)
      else
        match r2 with
        | '>' :: _ => some (id0, 1 + id0.length + 1)
        | _ => none
  | _ => none

/-- Closing `\]?\]` (greedy optional) after the name of the placeholder
pattern. -/
def placeClose (opened : Nat) (idLen : Nat) : List Char → Option Nat
  | ']' :: ']' :: _ => some (opened + idLen + 2)
  | ']' :: _ => some (opened + idLen + 1)
  | _ => none

/-- `\[\[?([A-Z_][A-Z0-9_]*)\]?\]` with greedy, backtrackable `\[?`. -/
def matchPlaceholderVar : List Char → Option (List Char × Nat)
  | '[' :: r =>
    let body (opened : Nat) (b : List Char) : Option (List Char × Nat) :=
      match takeIdentWith upperStart upperDigitCont b with
      | some (id0, r2) => (placeClose opened id0.length r2).map (fun n => (id0, n))
      | none => none
    match r with
    | '[' :: r2 =>
      match body 2 r2 with
      | some res => some res
      | none => body 1 r
    | _ => body 1 r
  | _ => none

/-- `re.finditer`: attempt the matcher at every position left to right,
resuming after each match (all matchers consume at least one
character). The fuel is the remaining length plus one. -/
def scanPos (m : List Char → Option (List Char × Nat)) :
    Nat → List Char → Nat → List (List Char × Nat × Nat)
  | 0, _, _ => []
  | _ + 1, [], _ => []
  | fuel + 1, u@(_ :: t), pos =>
    match m u with
    | some (nm, len) => (nm, pos, pos + len) :: scanPos m fuel (u.drop (max len 1)) (pos + max len 1)
    | none => scanPos m fuel t (pos + 1)

/-- One `(name, syntax tag, start, end)` tuple of `extract_variables`. -/
structure VarOcc where
  name : List Char
  tag : String
  start : Nat
  stop : Nat
deriving DecidableEq

/-- Stable insertion (earlier elements before later ones of equal
`start`), mirroring Python's stable `list.sort(key=...)`. -/
def insertByStart (x : VarOcc) : List VarOcc → List VarOcc
  | [] => [x]
  | y :: ys => if x.start ≤ y.start then x :: y :: ys else y :: insertByStart x ys

/-- Stable sort by `start`. -/
def sortByStart (l : List VarOcc) : List VarOcc := l.foldr insertByStart []

/-- The ordered `VARIABLE_PATTERNS` list. -/
def famList : List ((List Char → Option (List Char × Nat)) × String) :=
  [(matchJinja2, "jinja2"), (matchJinjaBlock, "jinja2_block"),
   (matchMustache, "mustache"), (matchFstring, "fstring"),
   (matchShellBrace, "shell_brace"), (matchShell, "shell"),
   (matchXmlVar, "xml"), (matchPlaceholderVar, "placeholder")]

/-- `extract_variables`: collect every pattern family's matches over
the whole span (families are independent and non-exclusive), then
stable-sort by start position. -/
def extractVariables (text : List Char) : List VarOcc :=
  sortByStart <| famList.flatMap fun fm =>
    (scanPos fm.1 (text.length + 1) text 0).map fun r =>
      ⟨r.1, fm.2, r.2.1, r.2.2⟩

/-! #### `detect_template_syntax` count patterns -/

/-- Lazy `.*?` up to the two-character delimiter `c1 c2`; `.` does not
match a newline. Returns the distance to where the delimiter starts. -/
def findLazyPair (c1 c2 : Char) : List Char → Option Nat
  | [] => none
  | c :: t =>
    if c = c1 && (match t with | d :: _ => d = c2 | [] => false) then some 0
    else if c = '\n' then none
    else (findLazyPair c1 c2 t).map (· + 1)

/-- `\{\{.*?\}\}|\{%.*?%\}` at one position (match length). -/
def countJinjaAt : List Char → Option Nat
  | '{' :: '{' :: r => (findLazyPair '}' '}' r).map (fun d => 2 + d + 2)
  | '{' :: '%' :: r => (findLazyPair '%' '}' r).map (fun d => 2 + d + 2)
  | _ => none

/-- `\{\{\{?[^{].*?\}\}\}?` at one position. -/
def countMustacheAt : List Char → Option Nat
  | '{' :: '{' :: r =>
    let tryBody (opened : Nat) (b : List Char) : Option Nat :=
      match b with
      | [] => none
      | x :: t =>
        if x = '{' then none
        else (findLazyPair '}' '}' t).map fun d =>
          opened + 1 + d + 2 + (match t.drop (d + 2) with | '}' :: _ => 1 | _ => 0)
    match r with
    | '{' :: r2 =>
      match tryBody 3 r2 with
      | some n => some n
      | none => tryBody 2 r
    | _ => tryBody 2 r
  | _ => none

/-- `\{[a-zA-Z_][a-zA-Z0-9_]*\}` at one position. -/
def countFstringAt : List Char → Option Nat
  | '{' :: r =>
    match takeIdent r with
    | some (id0, '}' :: _) => some (1 + id0.length + 1)
    | _ => none
  | _ => none

/-- `\$[{a-zA-Z_]` at one position. -/
def countShellAt : List Char → Option Nat
  | '$' :: c :: _ => if c = '{' || identStart c then some 2 else none
  | _ => none

/-- `<[A-Z_]+(?:\s*/>|>)` at one position. -/
def countXmlAt : List Char → Option Nat
  | '<' :: r =>
    let nm := r.takeWhile upperStart
    if nm.isEmpty then none
    else
      let r2 := r.drop nm.length
      let s := spacesLen r2
      if startsW "/>".data (r2.drop s) then some (1 + nm.length + s + 2)
      else
        match r2 with
        | '>' :: _ => some (1 + nm.length + 1)
        | _ => none
  | _ => none

/-- `\[\[?[A-Z_]+\]?\]` at one position. -/
def countPlaceholderAt : List Char → Option Nat
  | '[' :: r =>
    let body (opened : Nat) (b : List Char) : Option Nat :=
      let nm := b.takeWhile upperStart
      if nm.isEmpty then none
      else placeClose opened nm.length (b.drop nm.length)
    match r with
    | '[' :: r2 =>
      match body 2 r2 with
      | some n => some n
      | none => body 1 r
    | _ => body 1 r
  | _ => none

/-- `re.findall` match count for one count pattern. -/
def scanCount (m : List Char → Option Nat) : Nat → List Char → Nat
  | 0, _ => 0
  | _ + 1, [] => 0
  | fuel + 1, u@(_ :: t) =>
    match m u with
    | some len => 1 + scanCount m fuel (u.drop (max len 1))
    | none => scanCount m fuel t

/-- Number of matches of a count pattern over the whole text. -/
def countAll (m : List Char → Option Nat) (text : List Char) : Nat :=
  scanCount m (text.length + 1) text

/-- `detect_template_syntax`: count each dialect's signature pattern;
`plain` when every count is zero, otherwise the first dialect (in dict
insertion order) attaining the maximal count, as Python's
`max(syntax_counts, key=syntax_counts.get)`. -/
def detectTemplateSyn (text : List Char) : List Char :=
  let counts : List (List Char × Nat) :=
    [("jinja2".data, countAll countJinjaAt text),
     ("mustache".data, countAll countMustacheAt text),
     ("fstring".data, countAll countFstringAt text),
     ("shell".data, countAll countShellAt text),
     ("xml".data, countAll countXmlAt text),
     ("placeholder".data, countAll countPlaceholderAt text)]
  if counts.all (fun p => p.2 = 0) then "plain".data
  else
    match counts with
    | [] => "plain".data
    | c0 :: rest => (rest.foldl (fun b p => if p.2 > b.2 then p else b) c0).1

/-! ### The segmenter loop (`parse_prompt`) -/

/-- The mutable loop state of `parse_prompt`: emitted elements, the
`in_example` and `in_code_block` flags, the accumulation buffer
`current_element_lines`, its `current_element_type`, and
`element_start_line`. -/
structure ParseState where
  elements : List PromptElement
  inExample : Bool
  inCodeBlock : Bool
  buf : List (List Char)
  bufType : Option PromptType
  startLine : Nat
deriving DecidableEq

/-- `flush_element`: emit the accumulated buffer (if non-empty) as one
element whose metadata holds the detected document dialect, then clear
the buffer and its type. -/
def flushElement (syn : List Char) (st : ParseState) : ParseState :=
  match st.buf with
  | [] => st
  | _ =>
    { st with
      elements := st.elements ++ [{
        type := st.bufType.getD TEXT
        content := joinNl st.buf
        lineStart := st.startLine
        lineEnd := st.startLine + st.buf.length - 1
        raw := joinNl st.buf
        metadata := { syn := some syn } }]
      buf := []
      bufType := none }

/-- One iteration of the `for i, line in enumerate(lines)` loop of
`parse_prompt`, with the branch ladder in source order. -/
def processLine (syn : List Char) (i : Nat) (line : List Char) (st : ParseState) : ParseState :=
  let stripped := pyStrip line
  if startsW "```".data stripped then
    let newCb := !st.inCodeBlock
    let st1 :=
      if newCb then
        let f := flushElement syn st
        { f with startLine := i, bufType := some EXAMPLE, inCodeBlock := newCb }
      else { st with inCodeBlock := newCb }
    let st2 := { st1 with buf := st1.buf ++ [line] }
    if newCb then st2 else flushElement syn st2
  else if st.inCodeBlock then
    { st with buf := st.buf ++ [line] }
  else
    match roleMarker stripped with
    | some rn =>
      let f := flushElement syn st
      { f with elements := f.elements ++
          [⟨ROLE, rn, i, i, line, { role := some rn }⟩] }
    | none =>
      if startsW "#".data stripped || startsW "//".data stripped then
        let f := flushElement syn st
        { f with elements := f.elements ++
            [⟨COMMENT, lstripCommentMarks stripped, i, i, line, {}⟩] }
      else if isExampleMarker stripped then
        let f := flushElement syn st
        { f with inExample := true, startLine := i, bufType := some EXAMPLE,
                 buf := f.buf ++ [line] }
      else if isInstructionLine stripped && !st.inExample then
        let st1 :=
          if st.bufType = some INSTRUCTION then st
          else
            let f := flushElement syn st
            { f with startLine := i, bufType := some INSTRUCTION }
        { st1 with buf := st1.buf ++ [line] }
      else if stripped.isEmpty then
        if st.buf ≠ [] then { st with buf := st.buf ++ [line], inExample := false }
        else if st.elements ≠ [] then
          { st with elements := st.elements ++ [⟨WHITESPACE, [], i, i, line, {}⟩],
                    inExample := false }
        else { st with inExample := false }
      else
        let st1 :=
          if st.bufType = none then { st with bufType := some TEXT, startLine := i }
          else st
        { st1 with buf := st1.buf ++ [line] }

/-- Fold `processLine` over the lines with their indices. -/
def runLines (syn : List Char) : Nat → List (List Char) → ParseState → ParseState
  | _, [], st => st
  | i, l :: ls, st => runLines syn (i + 1) ls (processLine syn i l st)

/-- Variable annotation after segmentation: `Text`, `Instruction` and
`Example` elements get a `variables` metadata entry when at least one
variable occurs in their content. -/
def annotateElement (e : PromptElement) : PromptElement :=
  if e.type = TEXT ∨ e.type = INSTRUCTION ∨ e.type = EXAMPLE then
    let vs := extractVariables e.content
    if vs.isEmpty then e
    else { e with metadata := { e.metadata with vars := some (vs.map (·.name)) } }
  else e

/-- `parse_prompt`: split on newlines, detect the document dialect,
run the classifier loop, flush the trailing buffer, annotate
variables. -/
def parsePrompt (text : List Char) : List PromptElement :=
  let lines := splitNl text
  let syn := detectTemplateSyn text
  let fin := flushElement syn (runLines syn 0 lines ⟨[], false, false, [], none, 0⟩)
  fin.elements.map annotateElement

/-- `get_all_variables`: the set of names in any element's `variables`
metadata. -/
def getAllVariables (es : List PromptElement) : Finset (List Char) :=
  es.foldl (fun s e =>
    match e.metadata.vars with
    | some vs => s ∪ vs.toFinset
    | none => s) ∅

/-! ### Similarity (`differ.py`: `compute_similarity`)

`compute_similarity` calls
`difflib.SequenceMatcher(None, old_text, new_text).ratio()`
(CPython's stdlib). That algorithm is embedded here: `b2j` with the
autojunk purge, `find_longest_match` (main loop plus the two non-junk
extension loops; `isjunk` is `None`, so `bjunk` is empty, the
`not isbjunk(...)` tests are vacuously true and the two junk-extension
loops never execute), and the recursive region decomposition of
`get_matching_blocks`, of which only the total matched size is needed:
sorting and merging adjacent blocks preserve that total, and `ratio()`
is `2.0 * matches / (la + lb)`, modelled as an exact rational. -/

/-- Ascending positions of a character in `b` (`b2j` before purging). -/
def positionsOf (b : List Char) (c : Char) : List Nat :=
  (List.range b.length).filter (fun j => b.getD j ' ' = c)

/-- `b2j` with the autojunk purge: for `n >= 200`, characters occurring
more than `n // 100 + 1` times are popular and removed from the map. -/
def b2jOf (b : List Char) (c : Char) : List Nat :=
  let ps := positionsOf b c
  if 200 ≤ b.length ∧ b.length / 100 + 1 < ps.length then [] else ps

/-- Inner loop of `find_longest_match` over `b2j[a[i]]`: entries below
`blo` are skipped, the scan breaks at the first entry `>= bhi`,
otherwise the chain length `j2len.get(j-1, 0) + 1` is recorded in the
fresh row map and the best match is updated on a strict improvement. -/
def procJs (i blo bhi : Nat) (J : Nat → Nat) :
    List Nat → (Nat → Nat) → Nat × Nat × Nat → (Nat → Nat) × (Nat × Nat × Nat)
  | [], newJ, best => (newJ, best)
  | j :: rest, newJ, best =>
    if j < blo then procJs i blo bhi J rest newJ best
    else if bhi ≤ j then (newJ, best)
    else
      let k := (if j = 0 then 0 else J (j - 1)) + 1
      let newJ' := fun x => if x = j then k else newJ x
      let best' := if best.2.2 < k then (i + 1 - k, j + 1 - k, k) else best
      procJs i blo bhi J rest newJ' best'

/-- Row iteration of `find_longest_match`'s main loop. -/
def flmLoop (a : List Char) (b2j : Char → List Nat) (ahi blo bhi : Nat) :
    Nat → (Nat → Nat) → Nat × Nat × Nat → Nat × Nat × Nat
  | i, J, best =>
    if i < ahi then
      let p := procJs i blo bhi J (b2j (a.getD i ' ')) (fun _ => 0) best
      flmLoop a b2j ahi blo bhi (i + 1) p.1 p.2
    else best
termination_by i => ahi - i

/-- Backward extension loop (`while besti > alo and bestj > blo and
a[besti-1] == b[bestj-1]`; the `not isbjunk(...)` conjunct is
vacuously true). -/
def extBack (a b : List Char) (alo blo : Nat) :
    Nat → Nat → Nat → Nat × Nat × Nat
  | bi, bj, bk =>
    if alo < bi ∧ blo < bj ∧ a.getD (bi - 1) ' ' = b.getD (bj - 1) ' ' then
      extBack a b alo blo (bi - 1) (bj - 1) (bk + 1)
    else (bi, bj, bk)
termination_by bi _ _ => bi

/-- Forward extension loop (`while besti+bestsize < ahi and
bestj+bestsize < bhi and a[...] == b[...]`). -/
def extFwd (a b : List Char) (ahi bhi bi bj : Nat) : Nat → Nat
  | bk =>
    if bi + bk < ahi ∧ bj + bk < bhi ∧ a.getD (bi + bk) ' ' = b.getD (bj + bk) ' ' then
      extFwd a b ahi bhi bi bj (bk + 1)
    else bk
termination_by bk => ahi - (bi + bk)

/-- `find_longest_match(alo, ahi, blo, bhi)`. -/
def findLongestMatch (a b : List Char) (b2j : Char → List Nat)
    (alo ahi blo bhi : Nat) : Nat × Nat × Nat :=
  let m := flmLoop a b2j ahi blo bhi alo (fun _ => 0) (alo, blo, 0)
  let e := extBack a b alo blo m.1 m.2.1 m.2.2
  (e.1, e.2.1, extFwd a b ahi bhi e.1 e.2.1 e.2.2)

/-- Range facts about a match triple within a region. -/
def InRange (alo ahi blo bhi : Nat) (r : Nat × Nat × Nat) : Prop :=
  alo ≤ r.1 ∧ blo ≤ r.2.1 ∧ r.1 + r.2.2 ≤ ahi ∧ r.2.1 + r.2.2 ≤ bhi

/-- Invariant of a row map: every chain fits in the rows processed so
far and in the column window. -/
def JInv (alo bound blo bhi : Nat) (J : Nat → Nat) : Prop :=
  ∀ v, J v + alo ≤ bound ∧ (0 < J v → blo ≤ v ∧ v < bhi ∧ J v + blo ≤ v + 1)

theorem procJs_inv {alo i blo bhi : Nat} {J : Nat → Nat}
    (hJ : JInv alo i blo bhi J) (hi : alo ≤ i) :
    ∀ js (newJ : Nat → Nat) (best : Nat × Nat × Nat),
      JInv alo (i + 1) blo bhi newJ → InRange alo (i + 1) blo bhi best →
      JInv alo (i + 1) blo bhi (procJs i blo bhi J js newJ best).1 ∧
      InRange alo (i + 1) blo bhi (procJs i blo bhi J js newJ best).2 := by
  intro js
  induction js with
  | nil => intro newJ best hN hB; exact ⟨hN, hB⟩
  | cons j rest ih =>
    intro newJ best hN hB
    by_cases h1 : j < blo
    · simpa [procJs, h1] using ih newJ best hN hB
    · by_cases h2 : bhi ≤ j
      · simpa [procJs, h1, h2] using ⟨hN, hB⟩
      · have hblo : blo ≤ j := Nat.le_of_not_lt h1
        have hbhi : j < bhi := Nat.lt_of_not_le h2
        have hk1 : (if j = 0 then 0 else J (j - 1)) + 1 + alo ≤ i + 1 := by
          by_cases hj0 : j = 0
          · simp [hj0]; omega
          · have := (hJ (j - 1)).1
            simp [hj0]; omega
        have hk2 : (if j = 0 then 0 else J (j - 1)) + 1 + blo ≤ j + 1 := by
          by_cases hj0 : j = 0
          · subst hj0; simp; omega
          · rcases Nat.eq_zero_or_pos (J (j - 1)) with hz | hp
            · simp [hj0, hz]; omega
            · have := ((hJ (j - 1)).2 hp).2.2
              have hj1 : 1 ≤ j := Nat.one_le_iff_ne_zero.mpr hj0
              simp [hj0]; omega
        simp only [procJs, if_neg h1, if_neg h2]
        refine ih _ _ ?_ ?_
        · intro v
          by_cases hv : v = j
          · subst hv
            constructor
            · simpa using hk1
            · intro _
              refine ⟨hblo, hbhi, by simpa using hk2⟩
          · simpa [hv] using hN v
        · set k := (if j = 0 then 0 else J (j - 1)) + 1 with hkdef
          by_cases hup : best.2.2 < k
          · simp only [if_pos hup]
            refine ⟨?_, ?_, ?_, ?_⟩ <;> simp only <;> omega
          · simpa [hup] using hB


theorem flmLoop_inv (a : List Char) (b2j : Char → List Nat) (alo ahi blo bhi : Nat) :
    ∀ n i (J : Nat → Nat) (best : Nat × Nat × Nat), ahi - i = n → alo ≤ i → i ≤ ahi →
      JInv alo i blo bhi J → InRange alo i blo bhi best →
      InRange alo ahi blo bhi (flmLoop a b2j ahi blo bhi i J best) := by
  intro n
  induction n with
  | zero =>
    intro i J best hn hi1 hi2 hJ hB
    have hlt : ¬ i < ahi := by omega
    rw [flmLoop, if_neg hlt]
    have : i = ahi := by omega
    subst this
    exact hB
  | succ n ih =>
    intro i J best hn hi1 hi2 hJ hB
    have hlt : i < ahi := by omega
    rw [flmLoop, if_pos hlt]
    have hstep := procJs_inv hJ hi1 (b2j (a.getD i ' '))
      (fun _ => 0) best
      (by
        intro v
        refine ⟨?_, ?_⟩
        · show (0 : Nat) + alo ≤ i + 1
          omega
        · intro h
          simp at h)
      (by obtain ⟨p1, p2, p3, p4⟩ := hB; exact ⟨p1, p2, by omega, p4⟩)
    exact ih (i + 1) _ _ (by omega) (by omega) (by omega) hstep.1 hstep.2

theorem extBack_spec (a b : List Char) (alo blo : Nat) :
    ∀ bi bj bk, alo ≤ bi → blo ≤ bj →
      alo ≤ (extBack a b alo blo bi bj bk).1 ∧
      blo ≤ (extBack a b alo blo bi bj bk).2.1 ∧
      (extBack a b alo blo bi bj bk).1 + (extBack a b alo blo bi bj bk).2.2 = bi + bk ∧
      (extBack a b alo blo bi bj bk).2.1 + (extBack a b alo blo bi bj bk).2.2 = bj + bk := by
  intro bi
  induction bi using Nat.strong_induction_on with
  | _ bi ih =>
    intro bj bk h1 h2
    by_cases hc : alo < bi ∧ blo < bj ∧ a.getD (bi - 1) ' ' = b.getD (bj - 1) ' '
    · rw [extBack, if_pos hc]
      have hrec := ih (bi - 1) (by omega) (bj - 1) (bk + 1) (by omega) (by omega)
      refine ⟨hrec.1, hrec.2.1, by omega, by omega⟩
    · rw [extBack, if_neg hc]
      exact ⟨h1, h2, rfl, rfl⟩

theorem extFwd_spec (a b : List Char) (ahi bhi bi bj : Nat) :
    ∀ n bk, ahi - (bi + bk) = n → bi + bk ≤ ahi → bj + bk ≤ bhi →
      bi + extFwd a b ahi bhi bi bj bk ≤ ahi ∧
      bj + extFwd a b ahi bhi bi bj bk ≤ bhi := by
  intro n
  induction n with
  | zero =>
    intro bk hn h1 h2
    have hc : ¬ (bi + bk < ahi ∧ bj + bk < bhi ∧
        a.getD (bi + bk) ' ' = b.getD (bj + bk) ' ') := by
      intro hc; omega
    rw [extFwd, if_neg hc]
    exact ⟨h1, h2⟩
  | succ n ih =>
    intro bk hn h1 h2
    by_cases hc : bi + bk < ahi ∧ bj + bk < bhi ∧
        a.getD (bi + bk) ' ' = b.getD (bj + bk) ' '
    · rw [extFwd, if_pos hc]
      exact ih (bk + 1) (by omega) (by omega) (by omega)
    · rw [extFwd, if_neg hc]
      exact ⟨h1, h2⟩

theorem flm_inRange (a b : List Char) (b2j : Char → List Nat)
    (alo ahi blo bhi : Nat) (h1 : alo ≤ ahi) (h2 : blo ≤ bhi) :
    InRange alo ahi blo bhi (findLongestMatch a b b2j alo ahi blo bhi) := by
  have hmain := flmLoop_inv a b2j alo ahi blo bhi (ahi - alo) alo (fun _ => 0)
    (alo, blo, 0) rfl le_rfl h1
    (by
      intro v
      refine ⟨?_, ?_⟩
      · show (0 : Nat) + alo ≤ alo
        omega
      · intro h
        simp at h)
    (by
      refine ⟨le_rfl, le_rfl, ?_, ?_⟩
      · show alo + 0 ≤ alo
        omega
      · show blo + 0 ≤ bhi
        omega)
  set m := flmLoop a b2j ahi blo bhi alo (fun _ => 0) (alo, blo, 0) with hm
  obtain ⟨q1, q2, q3, q4⟩ := hmain
  have hback := extBack_spec a b alo blo m.1 m.2.1 m.2.2 q1 q2
  set e := extBack a b alo blo m.1 m.2.1 m.2.2 with he
  obtain ⟨w1, w2, w3, w4⟩ := hback
  have hfwd := extFwd_spec a b ahi bhi e.1 e.2.1 (ahi - (e.1 + e.2.2)) e.2.2 rfl
    (by omega) (by omega)
  exact ⟨w1, w2, hfwd.1, hfwd.2⟩

theorem procJs_degenerate (i blo bhi : Nat) (J : Nat → Nat) (hd : bhi ≤ blo) :
    ∀ js (newJ : Nat → Nat) (best : Nat × Nat × Nat),
      (procJs i blo bhi J js newJ best).2 = best := by
  intro js
  induction js with
  | nil => intro newJ best; rfl
  | cons j rest ih =>
    intro newJ best
    by_cases h1 : j < blo
    · simpa [procJs, h1] using ih newJ best
    · have h2 : bhi ≤ j := by omega
      simp [procJs, h1, h2]

theorem flmLoop_degenerate (a : List Char) (b2j : Char → List Nat)
    (ahi blo bhi : Nat) (hd : bhi ≤ blo) :
    ∀ n i (J : Nat → Nat) (best : Nat × Nat × Nat), ahi - i = n →
      flmLoop a b2j ahi blo bhi i J best = best := by
  intro n
  induction n with
  | zero =>
    intro i J best hn
    rw [flmLoop, if_neg (by omega : ¬ i < ahi)]
  | succ n ih =>
    intro i J best hn
    have hlt : i < ahi := by omega
    rw [flmLoop, if_pos hlt]
    show flmLoop a b2j ahi blo bhi (i + 1)
      (procJs i blo bhi J (b2j (a.getD i ' ')) (fun _ => 0) best).1
      (procJs i blo bhi J (b2j (a.getD i ' ')) (fun _ => 0) best).2 = best
    rw [procJs_degenerate i blo bhi J hd]
    exact ih (i + 1) _ _ (by omega)

theorem flm_nonzero_inRange (a b : List Char) (b2j : Char → List Nat)
    (alo ahi blo bhi : Nat)
    (hk : (findLongestMatch a b b2j alo ahi blo bhi).2.2 ≠ 0) :
    InRange alo ahi blo bhi (findLongestMatch a b b2j alo ahi blo bhi) := by
  by_cases h1 : alo ≤ ahi
  · by_cases h2 : blo ≤ bhi
    · exact flm_inRange a b b2j alo ahi blo bhi h1 h2
    · exfalso
      apply hk
      have hmain : flmLoop a b2j ahi blo bhi alo (fun _ => 0) (alo, blo, 0) =
          (alo, blo, 0) :=
        flmLoop_degenerate a b2j ahi blo bhi (by omega) (ahi - alo) alo _ _ rfl
      have hback : extBack a b alo blo alo blo 0 = (alo, blo, 0) := by
        rw [extBack, if_neg]; intro hc; omega
      have hfwd : extFwd a b ahi bhi alo blo 0 = 0 := by
        rw [extFwd, if_neg]; intro hc; omega
      simp [findLongestMatch, hmain, hback, hfwd]
  · exfalso
    apply hk
    have hmain : flmLoop a b2j ahi blo bhi alo (fun _ => 0) (alo, blo, 0) =
        (alo, blo, 0) := by
      rw [flmLoop, if_neg (by omega)]
    have hback : extBack a b alo blo alo blo 0 = (alo, blo, 0) := by
      rw [extBack, if_neg]; intro hc; omega
    have hfwd : extFwd a b ahi bhi alo blo 0 = 0 := by
      rw [extFwd, if_neg]; intro hc; omega
    simp [findLongestMatch, hmain, hback, hfwd]

/-- Total size of the matching blocks found by `get_matching_blocks`'
region decomposition: the longest match of a region, plus the totals of
the sub-regions to its left and right (queued only under the same
guards as the source). Sorting and merging adjacent blocks preserve
this total, and the final `(la, lb, 0)` sentinel adds nothing. -/
def mbTotal (a b : List Char) (b2j : Char → List Nat) (alo ahi blo bhi : Nat) : Nat :=
  if hk : (findLongestMatch a b b2j alo ahi blo bhi).2.2 = 0 then 0
  else
    (findLongestMatch a b b2j alo ahi blo bhi).2.2 +
      (if h1 : alo < (findLongestMatch a b b2j alo ahi blo bhi).1 ∧
          blo < (findLongestMatch a b b2j alo ahi blo bhi).2.1 then
        mbTotal a b b2j alo (findLongestMatch a b b2j alo ahi blo bhi).1
          blo (findLongestMatch a b b2j alo ahi blo bhi).2.1
      else 0) +
      (if h2 : (findLongestMatch a b b2j alo ahi blo bhi).1 +
            (findLongestMatch a b b2j alo ahi blo bhi).2.2 < ahi ∧
          (findLongestMatch a b b2j alo ahi blo bhi).2.1 +
            (findLongestMatch a b b2j alo ahi blo bhi).2.2 < bhi then
        mbTotal a b b2j
          ((findLongestMatch a b b2j alo ahi blo bhi).1 +
            (findLongestMatch a b b2j alo ahi blo bhi).2.2) ahi
          ((findLongestMatch a b b2j alo ahi blo bhi).2.1 +
            (findLongestMatch a b b2j alo ahi blo bhi).2.2) bhi
      else 0)
termination_by (ahi - alo) + (bhi - blo)
decreasing_by
  · have hr := flm_nonzero_inRange a b b2j alo ahi blo bhi hk
    obtain ⟨q1, q2, q3, q4⟩ := hr
    omega
  · have hr := flm_nonzero_inRange a b b2j alo ahi blo bhi hk
    obtain ⟨q1, q2, q3, q4⟩ := hr
    omega

theorem mbTotal_le (a b : List Char) (b2j : Char → List Nat) :
    ∀ alo ahi blo bhi : Nat,
      mbTotal a b b2j alo ahi blo bhi ≤ min (ahi - alo) (bhi - blo) := by
  intro alo ahi blo bhi
  generalize hmeas : (ahi - alo) + (bhi - blo) = n
  induction n using Nat.strong_induction_on generalizing alo ahi blo bhi with
  | _ n ih =>
    rw [mbTotal]
    by_cases hk : (findLongestMatch a b b2j alo ahi blo bhi).2.2 = 0
    · rw [dif_pos hk]
      omega
    · rw [dif_neg hk]
      have hr := flm_nonzero_inRange a b b2j alo ahi blo bhi hk
      obtain ⟨q1, q2, q3, q4⟩ := hr
      set r := findLongestMatch a b b2j alo ahi blo bhi with hrdef
      have hleft : (if h1 : alo < r.1 ∧ blo < r.2.1 then
          mbTotal a b b2j alo r.1 blo r.2.1 else 0) ≤
          min (r.1 - alo) (r.2.1 - blo) := by
        by_cases h1 : alo < r.1 ∧ blo < r.2.1
        · rw [dif_pos h1]
          exact ih ((r.1 - alo) + (r.2.1 - blo)) (by omega) alo r.1 blo r.2.1 rfl
        · rw [dif_neg h1]
          omega
      have hright : (if h2 : r.1 + r.2.2 < ahi ∧ r.2.1 + r.2.2 < bhi then
          mbTotal a b b2j (r.1 + r.2.2) ahi (r.2.1 + r.2.2) bhi else 0) ≤
          min (ahi - (r.1 + r.2.2)) (bhi - (r.2.1 + r.2.2)) := by
        by_cases h2 : r.1 + r.2.2 < ahi ∧ r.2.1 + r.2.2 < bhi
        · rw [dif_pos h2]
          exact ih ((ahi - (r.1 + r.2.2)) + (bhi - (r.2.1 + r.2.2))) (by omega)
            (r.1 + r.2.2) ahi (r.2.1 + r.2.2) bhi rfl
        · rw [dif_neg h2]
          omega
      omega

/-- `difflib._calculate_ratio`: `2.0 * matches / length`, or `1.0` for
two empty sequences. -/
def calcRatio (m length : Nat) : ℚ :=
  if length = 0 then 1 else 2 * (m : ℚ) / (length : ℚ)

/-- `SequenceMatcher(None, a, b).ratio()`. -/
def seqRatio (a b : List Char) : ℚ :=
  calcRatio (mbTotal a b (b2jOf b) 0 a.length 0 b.length) (a.length + b.length)

/-- `compute_similarity` from `differ.py`. -/
def computeSimilarity (oldT newT : List Char) : ℚ :=
  if oldT.isEmpty && newT.isEmpty then 1
  else if oldT.isEmpty || newT.isEmpty then 0
  else seqRatio oldT newT

theorem seqRatio_nonneg (a b : List Char) : 0 ≤ seqRatio a b := by
  unfold seqRatio calcRatio
  by_cases h : a.length + b.length = 0
  · rw [if_pos h]
    norm_num
  · rw [if_neg h]
    positivity

theorem seqRatio_le_one (a b : List Char) : seqRatio a b ≤ 1 := by
  unfold seqRatio calcRatio
  by_cases h : a.length + b.length = 0
  · rw [if_pos h]
  · rw [if_neg h]
    have hm := mbTotal_le a b (b2jOf b) 0 a.length 0 b.length
    have hnat : 2 * mbTotal a b (b2jOf b) 0 a.length 0 b.length ≤
        a.length + b.length := by omega
    rw [div_le_one (by positivity)]
    calc (2 : ℚ) * (mbTotal a b (b2jOf b) 0 a.length 0 b.length : ℚ)
        = ((2 * mbTotal a b (b2jOf b) 0 a.length 0 b.length : Nat) : ℚ) := by
          push_cast; ring
      _ ≤ ((a.length + b.length : Nat) : ℚ) := by exact_mod_cast hnat

theorem computeSimilarity_mem (oldT newT : List Char) :
    0 ≤ computeSimilarity oldT newT ∧ computeSimilarity oldT newT ≤ 1 := by
  unfold computeSimilarity
  by_cases h1 : oldT.isEmpty && newT.isEmpty
  · rw [if_pos h1]
    norm_num
  · rw [if_neg h1]
    by_cases h2 : oldT.isEmpty || newT.isEmpty
    · rw [if_pos h2]
      norm_num
    · rw [if_neg h2]
      exact ⟨seqRatio_nonneg oldT newT, seqRatio_le_one oldT newT⟩

/-! ### Alignment and diff building (`differ.py`) -/

/-- `ChangeType` enumeration from `differ.py`. -/
inductive ChangeType where
  | ADDED
  | REMOVED
  | MODIFIED
  | UNCHANGED
deriving DecidableEq

/-- `ElementDiff` dataclass; its open `details` dict only ever carries
the `similarity` key, modelled as an optional rational. -/
structure ElementDiff where
  changeType : ChangeType
  elementType : PromptType
  oldContent : Option (List Char) := none
  newContent : Option (List Char) := none
  oldLine : Option Nat := none
  newLine : Option Nat := none
  details : Option ℚ := none
deriving DecidableEq

/-- `DiffResult` dataclass. -/
structure DiffResult where
  oldPath : List Char
  newPath : List Char
  elementDiffs : List ElementDiff
  oldVariables : Finset (List Char)
  newVariables : Finset (List Char)
  addedVariables : Finset (List Char)
  removedVariables : Finset (List Char)
  similarity : ℚ
deriving DecidableEq

/-- The `has_changes` property of `DiffResult`. -/
def hasChanges (r : DiffResult) : Bool :=
  r.elementDiffs.any (fun d => decide (d.changeType ≠ ChangeType.UNCHANGED))

/-- The `enumerate` + whitespace filter applied to both inputs of
`align_elements`. -/
def elemFilter (es : List PromptElement) : List (Nat × PromptElement) :=
  es.enum.filter (fun q => decide (q.2.type ≠ WHITESPACE))

/-- State of `align_elements`: accumulated pairs and the two used-index
sets. -/
structure AlignState where
  pairs : List (Option PromptElement × Option PromptElement)
  oldUsed : List Nat
  newUsed : List Nat
deriving DecidableEq

/-- First pass body: match the first unused old element with equal kind
and identical content. -/
def exactStep (oldF : List (Nat × PromptElement)) (st : AlignState)
    (p : Nat × PromptElement) : AlignState :=
  match oldF.find? (fun q => decide (q.1 ∉ st.oldUsed) &&
      decide (q.2.type = p.2.type) && decide (q.2.content = p.2.content)) with
  | some q => ⟨st.pairs ++ [(some q.2, some p.2)], q.1 :: st.oldUsed, p.1 :: st.newUsed⟩
  | none => st

/-- The inner candidate scan of the similarity pass, with accumulator
`(best_match, best_score)` and initial score `0.5`: unused old elements
of equal kind are scored and the best is kept on a strict
improvement. -/
def fuzzyBestAux (ne : PromptElement) (oldUsed : List Nat) :
    List (Nat × PromptElement) → Option (Nat × PromptElement) × ℚ →
      Option (Nat × PromptElement) × ℚ
  | [], acc => acc
  | q :: rest, acc =>
    let acc' :=
      if q.1 ∉ oldUsed ∧ q.2.type = ne.type then
        if acc.2 < computeSimilarity q.2.content ne.content then
          (some q, computeSimilarity q.2.content ne.content)
        else acc
      else acc
    fuzzyBestAux ne oldUsed rest acc'

/-- The similarity pass candidate search for one new element. -/
def fuzzyBest (ne : PromptElement) (oldF : List (Nat × PromptElement))
    (oldUsed : List Nat) : Option (Nat × PromptElement) :=
  (fuzzyBestAux ne oldUsed oldF (none, 1/2)).1

/-- Second pass body: skip already-matched new elements, otherwise
match the best-scoring unused old element when one exists. -/
def fuzzyStep (oldF : List (Nat × PromptElement)) (st : AlignState)
    (p : Nat × PromptElement) : AlignState :=
  if p.1 ∈ st.newUsed then st
  else
    match fuzzyBest p.2 oldF st.oldUsed with
    | some q => ⟨st.pairs ++ [(some q.2, some p.2)], q.1 :: st.oldUsed, p.1 :: st.newUsed⟩
    | none => st

/-- `align_elements`: exact pass, similarity pass, then the unused old
elements as removals and the unused new elements as additions. -/
def alignElements (old new : List PromptElement) :
    List (Option PromptElement × Option PromptElement) :=
  let oldF := elemFilter old
  let newF := elemFilter new
  let st1 := newF.foldl (exactStep oldF) ⟨[], [], []⟩
  let st2 := newF.foldl (fuzzyStep oldF) st1
  st2.pairs
    ++ (oldF.filter (fun q => decide (q.1 ∉ st2.oldUsed))).map (fun q => (some q.2, none))
    ++ (newF.filter (fun q => decide (q.1 ∉ st2.newUsed))).map (fun q => (none, some q.2))

/-- The four-way classification in the loop of `diff_prompts`. The
`(none, none)` case cannot arise from `align_elements` (proved below as
`alignElements_ne_nonenone`); the Python loop would fault there, so the
embedding returns `none`. -/
def buildDiff : Option PromptElement × Option PromptElement → Option ElementDiff
  | (none, none) => none
  | (none, some n) =>
    some { changeType := ChangeType.ADDED, elementType := n.type,
           newContent := some n.content, newLine := some n.lineStart }
  | (some o, none) =>
    some { changeType := ChangeType.REMOVED, elementType := o.type,
           oldContent := some o.content, oldLine := some o.lineStart }
  | (some o, some n) =>
    if o.content = n.content then
      some { changeType := ChangeType.UNCHANGED, elementType := o.type,
             oldContent := some o.content, newContent := some n.content,
             oldLine := some o.lineStart, newLine := some n.lineStart }
    else
      some { changeType := ChangeType.MODIFIED, elementType := o.type,
             oldContent := some o.content, newContent := some n.content,
             oldLine := some o.lineStart, newLine := some n.lineStart,
             details := some (computeSimilarity o.content n.content) }

/-- `diff_prompts`. -/
def diffPrompts (oldText newText oldPath newPath : List Char) : DiffResult :=
  let oldElements := parsePrompt oldText
  let newElements := parsePrompt newText
  let oldVariables := getAllVariables oldElements
  let newVariables := getAllVariables newElements
  let aligned := alignElements oldElements newElements
  { oldPath := oldPath
    newPath := newPath
    elementDiffs := aligned.filterMap buildDiff
    oldVariables := oldVariables
    newVariables := newVariables
    addedVariables := newVariables \ oldVariables
    removedVariables := oldVariables \ newVariables
    similarity := computeSimilarity oldText newText }

/-! ### Dialect-metadata invariant of the segmenter (for C4) -/

/-- Buffer-flushed element kinds carry the document dialect in their
metadata; directly emitted kinds carry none. -/
def SynOk (syn : List Char) (e : PromptElement) : Prop :=
  ((e.type = TEXT ∨ e.type = INSTRUCTION ∨ e.type = EXAMPLE) →
    e.metadata.syn = some syn) ∧
  ((e.type = ROLE ∨ e.type = COMMENT ∨ e.type = WHITESPACE) →
    e.metadata.syn = none)

/-- The buffer type is only ever absent, `Text`, `Instruction` or
`Example`. -/
def BufTypeOk (st : ParseState) : Prop :=
  st.bufType = none ∨ st.bufType = some TEXT ∨
    st.bufType = some INSTRUCTION ∨ st.bufType = some EXAMPLE

theorem flushElement_synOk (syn : List Char) (st : ParseState)
    (hall : ∀ e ∈ st.elements, SynOk syn e) (hbt : BufTypeOk st) :
    (∀ e ∈ (flushElement syn st).elements, SynOk syn e) ∧
      BufTypeOk (flushElement syn st) ∧
      (flushElement syn st).inExample = st.inExample ∧
      (flushElement syn st).inCodeBlock = st.inCodeBlock := by
  unfold flushElement
  cases hb : st.buf with
  | nil => exact ⟨hall, hbt, rfl, rfl⟩
  | cons x xs =>
    refine ⟨?_, Or.inl rfl, rfl, rfl⟩
    intro e he
    simp only [List.mem_append, List.mem_singleton] at he
    rcases he with h | h
    · exact hall e h
    · subst h
      constructor
      · intro _; rfl
      · intro htype
        exfalso
        rcases hbt with h1 | h1 | h1 | h1 <;> rw [h1] at htype <;>
          simp only [Option.getD] at htype <;>
          rcases htype with h2 | h2 | h2 <;> simp at h2

theorem processLine_synOk (syn : List Char) (i : Nat) (line : List Char) (st : ParseState)
    (hall : ∀ e ∈ st.elements, SynOk syn e) (hbt : BufTypeOk st) :
    (∀ e ∈ (processLine syn i line st).elements, SynOk syn e) ∧
      BufTypeOk (processLine syn i line st) := by
  have hfl := flushElement_synOk syn st hall hbt
  unfold processLine
  by_cases h1 : startsW "```".data (pyStrip line) = true
  · rw [if_pos h1]
    by_cases hc : st.inCodeBlock = true
    · simp only [hc, Bool.not_true, Bool.false_eq_true, if_false]
      set st2 : ParseState :=
        { st with inCodeBlock := false, buf := st.buf ++ [line] } with hst2
      have hfl2 := flushElement_synOk syn st2 hall hbt
      exact ⟨hfl2.1, hfl2.2.1⟩
    · have hc' : st.inCodeBlock = false := by
        cases h : st.inCodeBlock
        · rfl
        · exact absurd h hc
      simp only [hc', Bool.not_false, if_true]
      exact ⟨hfl.1, Or.inr (Or.inr (Or.inr rfl))⟩
  · rw [if_neg h1]
    by_cases hc : st.inCodeBlock = true
    · rw [if_pos hc]
      exact ⟨hall, hbt⟩
    · rw [if_neg hc]
      cases hrm : roleMarker (pyStrip line) with
      | some rn =>
        refine ⟨?_, hfl.2.1⟩
        intro e he
        simp only [List.mem_append, List.mem_singleton] at he
        rcases he with h | h
        · exact hfl.1 e h
        · subst h
          exact ⟨fun h => by rcases h with h | h | h <;> simp at h, fun _ => rfl⟩
      | none =>
        by_cases h2 : (startsW "#".data (pyStrip line) || startsW "//".data (pyStrip line)) = true
        · rw [if_pos h2]
          refine ⟨?_, hfl.2.1⟩
          intro e he
          simp only [List.mem_append, List.mem_singleton] at he
          rcases he with h | h
          · exact hfl.1 e h
          · subst h
            exact ⟨fun h => by rcases h with h | h | h <;> simp at h, fun _ => rfl⟩
        · rw [if_neg h2]
          by_cases h3 : isExampleMarker (pyStrip line) = true
          · rw [if_pos h3]
            exact ⟨hfl.1, Or.inr (Or.inr (Or.inr rfl))⟩
          · rw [if_neg h3]
            by_cases h4 : (isInstructionLine (pyStrip line) && !st.inExample) = true
            · rw [if_pos h4]
              by_cases h5 : st.bufType = some INSTRUCTION
              · rw [if_pos h5]
                exact ⟨hall, hbt⟩
              · rw [if_neg h5]
                exact ⟨hfl.1, Or.inr (Or.inr (Or.inl rfl))⟩
            · rw [if_neg h4]
              by_cases h6 : (pyStrip line).isEmpty = true
              · rw [if_pos h6]
                by_cases h7 : st.buf ≠ []
                · rw [if_pos h7]
                  exact ⟨hall, hbt⟩
                · rw [if_neg h7]
                  by_cases h8 : st.elements ≠ []
                  · rw [if_pos h8]
                    refine ⟨?_, hbt⟩
                    intro e he
                    simp only [List.mem_append, List.mem_singleton] at he
                    rcases he with h | h
                    · exact hall e h
                    · subst h
                      exact ⟨fun h => by rcases h with h | h | h <;> simp at h,
                        fun _ => rfl⟩
                  · rw [if_neg h8]
                    exact ⟨hall, hbt⟩
              · rw [if_neg h6]
                by_cases h9 : st.bufType = none
                · rw [if_pos h9]
                  exact ⟨hall, Or.inr (Or.inl rfl)⟩
                · rw [if_neg h9]
                  exact ⟨hall, hbt⟩

theorem runLines_synOk (syn : List Char) :
    ∀ (ls : List (List Char)) (i : Nat) (st : ParseState),
      (∀ e ∈ st.elements, SynOk syn e) → BufTypeOk st →
      (∀ e ∈ (runLines syn i ls st).elements, SynOk syn e) ∧
        BufTypeOk (runLines syn i ls st) := by
  intro ls
  induction ls with
  | nil => intro i st hall hbt; exact ⟨hall, hbt⟩
  | cons l rest ih =>
    intro i st hall hbt
    have h := processLine_synOk syn i l st hall hbt
    exact ih (i + 1) (processLine syn i l st) h.1 h.2

theorem annotateElement_syn (e : PromptElement) :
    (annotateElement e).type = e.type ∧
    (annotateElement e).metadata.syn = e.metadata.syn ∧
    (annotateElement e).content = e.content ∧
    (annotateElement e).lineStart = e.lineStart ∧
    (annotateElement e).lineEnd = e.lineEnd := by
  unfold annotateElement
  by_cases h : e.type = TEXT ∨ e.type = INSTRUCTION ∨ e.type = EXAMPLE
  · rw [if_pos h]
    by_cases h2 : (extractVariables e.content).isEmpty = true
    · rw [if_pos h2]
      exact ⟨rfl, rfl, rfl, rfl, rfl⟩
    · rw [if_neg h2]
      exact ⟨rfl, rfl, rfl, rfl, rfl⟩
  · rw [if_neg h]
    exact ⟨rfl, rfl, rfl, rfl, rfl⟩

/-! ### Code-fence lemmas (for C9) -/

/-- A line whose stripped form starts with a code fence. -/
def isFence (l : List Char) : Bool := startsW "```".data (pyStrip l)

theorem flushElement_buf (syn : List Char) (st : ParseState) :
    (flushElement syn st).buf = [] := by
  unfold flushElement
  cases hb : st.buf
  · exact hb
  · rfl

theorem flushElement_inCodeBlock (syn : List Char) (st : ParseState) :
    (flushElement syn st).inCodeBlock = st.inCodeBlock := by
  unfold flushElement
  cases st.buf
  · rfl
  · rfl

theorem processLine_inCodeBlock (syn : List Char) (i : Nat) (line : List Char)
    (st : ParseState) :
    (processLine syn i line st).inCodeBlock =
      if isFence line then !st.inCodeBlock else st.inCodeBlock := by
  unfold processLine
  unfold isFence
  by_cases h1 : startsW "```".data (pyStrip line) = true
  · rw [if_pos h1, if_pos h1]
    by_cases hc : st.inCodeBlock = true
    · simp only [hc, Bool.not_true, Bool.false_eq_true, if_false]
      exact flushElement_inCodeBlock syn
        { st with inCodeBlock := false, buf := st.buf ++ [line] }
    · have hc' : st.inCodeBlock = false := by
        cases h : st.inCodeBlock
        · rfl
        · exact absurd h hc
      simp only [hc', Bool.not_false, if_true]
  · rw [if_neg h1, if_neg h1]
    by_cases hc : st.inCodeBlock = true
    · rw [if_pos hc]
    · rw [if_neg hc]
      cases hrm : roleMarker (pyStrip line) with
      | some rn => exact flushElement_inCodeBlock syn st
      | none =>
        by_cases h2 : (startsW "#".data (pyStrip line) ||
            startsW "//".data (pyStrip line)) = true
        · rw [if_pos h2]
          exact flushElement_inCodeBlock syn st
        · rw [if_neg h2]
          by_cases h3 : isExampleMarker (pyStrip line) = true
          · rw [if_pos h3]
            exact flushElement_inCodeBlock syn st
          · rw [if_neg h3]
            by_cases h4 : (isInstructionLine (pyStrip line) && !st.inExample) = true
            · rw [if_pos h4]
              by_cases h5 : st.bufType = some INSTRUCTION
              · rw [if_pos h5]
              · rw [if_neg h5]
                exact flushElement_inCodeBlock syn st
            · rw [if_neg h4]
              by_cases h6 : (pyStrip line).isEmpty = true
              · rw [if_pos h6]
                by_cases h7 : st.buf ≠ []
                · rw [if_pos h7]
                · rw [if_neg h7]
                  by_cases h8 : st.elements ≠ []
                  · rw [if_pos h8]
                  · rw [if_neg h8]
              · rw [if_neg h6]
                by_cases h9 : st.bufType = none
                · rw [if_pos h9]
                · rw [if_neg h9]

theorem runLines_append (syn : List Char) :
    ∀ (xs ys : List (List Char)) (i : Nat) (st : ParseState),
      runLines syn i (xs ++ ys) st =
        runLines syn (i + xs.length) ys (runLines syn i xs st) := by
  intro xs
  induction xs with
  | nil => intro ys i st; simp [runLines]
  | cons x rest ih =>
    intro ys i st
    show runLines syn (i + 1) (rest ++ ys) (processLine syn i x st) = _
    rw [ih]
    have harith : i + 1 + rest.length = i + (x :: rest).length := by
      simp [List.length_cons]
      omega
    rw [harith]
    rfl

theorem runLines_inCodeBlock (syn : List Char) :
    ∀ (ls : List (List Char)) (i : Nat) (st : ParseState),
      (runLines syn i ls st).inCodeBlock =
        xor st.inCodeBlock (decide (ls.countP (fun l => isFence l) % 2 = 1)) := by
  intro ls
  induction ls with
  | nil => intro i st; simp [runLines]
  | cons l rest ih =>
    intro i st
    show (runLines syn (i + 1) rest (processLine syn i l st)).inCodeBlock = _
    rw [ih, processLine_inCodeBlock]
    by_cases hf : isFence l = true
    · rw [if_pos hf]
      rw [List.countP_cons, if_pos hf]
      rcases Nat.even_or_odd (rest.countP (fun l => isFence l)) with he | ho
      · have h0 : rest.countP (fun l => isFence l) % 2 = 0 := Nat.even_iff.mp he
        have h1 : (rest.countP (fun l => isFence l) + 1) % 2 = 1 := by omega
        cases hb : st.inCodeBlock <;> simp [h0, h1]
      · have h0 : rest.countP (fun l => isFence l) % 2 = 1 := Nat.odd_iff.mp ho
        have h1 : (rest.countP (fun l => isFence l) + 1) % 2 = 0 := by omega
        cases hb : st.inCodeBlock <;> simp [h0, h1]
    · have hf' : isFence l = false := by
        cases h : isFence l
        · rfl
        · exact absurd h hf
      rw [if_neg hf]
      rw [List.countP_cons, hf']
      simp

theorem runLines_codeBlock_absorb (syn : List Char) :
    ∀ (ls : List (List Char)) (i : Nat) (st : ParseState),
      st.inCodeBlock = true → (∀ l ∈ ls, isFence l = false) →
      runLines syn i ls st = { st with buf := st.buf ++ ls } := by
  intro ls
  induction ls with
  | nil =>
    intro i st _ _
    show st = _
    cases st
    simp
  | cons l rest ih =>
    intro i st hcb hnf
    have hfl : isFence l = false := hnf l (List.mem_cons_self l rest)
    have hstep : processLine syn i l st = { st with buf := st.buf ++ [l] } := by
      unfold processLine
      unfold isFence at hfl
      rw [if_neg (by rw [hfl]; simp), if_pos hcb]
    show runLines syn (i + 1) rest (processLine syn i l st) = _
    rw [hstep, ih (i + 1) _ (by exact hcb) (fun x hx => hnf x (List.mem_cons_of_mem l hx))]
    simp

/-! ### Claim theorems -/

/-- C10: comparing two empty texts yields a `DiffResult` with no
element diffs, empty variable sets on every side, overall similarity
`1.0`, and `has_changes` false, for any labels. -/
theorem c10_empty_compare (l1 l2 : List Char) :
    (diffPrompts [] [] l1 l2).elementDiffs = [] ∧
    (diffPrompts [] [] l1 l2).oldVariables = ∅ ∧
    (diffPrompts [] [] l1 l2).newVariables = ∅ ∧
    (diffPrompts [] [] l1 l2).addedVariables = ∅ ∧
    (diffPrompts [] [] l1 l2).removedVariables = ∅ ∧
    (diffPrompts [] [] l1 l2).similarity = 1 ∧
    hasChanges (diffPrompts [] [] l1 l2) = false := by
  refine ⟨rfl, ?_, ?_, ?_, ?_, rfl, rfl⟩ <;> rfl

/-- C1 counterexample: the scenario input does not segment into three
elements — a blank line inside an open accumulation is appended to the
buffer rather than flushing it, so the whole input becomes a single
element. -/
theorem c1_counterexample :
    (parsePrompt "You are a helpful bot.\n\n{{name}}, please summarize.".data).length ≠ 3 := by
  decide

/-- C1 amended: the scenario input segments into exactly one
`Instruction` element covering lines 0–2 whose content is the whole
text and whose `variables` metadata is `["name", "name", "name"]` (the
`{{name}}` occurrence is registered by the jinja2, mustache and
fstring pattern families), with detected dialect `jinja2`. -/
theorem c1_segmentation :
    parsePrompt "You are a helpful bot.\n\n{{name}}, please summarize.".data =
      [{ type := INSTRUCTION,
         content := "You are a helpful bot.\n\n{{name}}, please summarize.".data,
         lineStart := 0, lineEnd := 2,
         raw := "You are a helpful bot.\n\n{{name}}, please summarize.".data,
         metadata := { syn := some "jinja2".data,
                       vars := some ["name".data, "name".data, "name".data] } }] := by
  decide

/-- C2 counterexample: in `"a\n\nb"` the blank line follows an open
accumulation, so under the claim the run would be flushed and a
`Whitespace` element emitted at line 1; the code emits no `Whitespace`
element at all (the blank joins the accumulation). -/
theorem c2_counterexample :
    ¬ ∃ e ∈ parsePrompt "a\n\nb".data, e.type = WHITESPACE := by
  decide

/-- C2 amended: outside a code block, a blank line (one whose stripped
form is empty) is appended to an open accumulation without flushing it
and without emitting anything; only when no accumulation is open and at
least one element already exists is a zero-content `Whitespace` element
emitted; the inside-example flag is always cleared. -/
theorem c2_blank_line_step (syn : List Char) (i : Nat) (line : List Char) (st : ParseState)
    (hcb : st.inCodeBlock = false) (hblank : pyStrip line = []) :
    processLine syn i line st =
      if st.buf ≠ [] then { st with buf := st.buf ++ [line], inExample := false }
      else if st.elements ≠ [] then
        { st with elements := st.elements ++ [⟨WHITESPACE, [], i, i, line, {}⟩],
                  inExample := false }
      else { st with inExample := false } := by
  unfold processLine
  rw [hblank, hcb]
  simp only [show startsW "```".data ([] : List Char) = false from rfl,
    show roleMarker ([] : List Char) = none from rfl,
    show startsW "#".data ([] : List Char) = false from rfl,
    show startsW "//".data ([] : List Char) = false from rfl,
    show isExampleMarker ([] : List Char) = false from rfl,
    show isInstructionLine ([] : List Char) = false from rfl,
    show ([] : List Char).isEmpty = true from rfl,
    Bool.false_and, Bool.and_false, Bool.false_eq_true, if_false, if_true]
  rfl

/-- Witness for the C2 amended theorem: a blank line hitting a state
with an open one-line `Text` accumulation is appended to the buffer,
flushing nothing and emitting nothing. -/
theorem c2_blank_line_step_witness :
    processLine "plain".data 1 []
        ⟨[], false, false, ["a".data], some TEXT, 0⟩ =
      ⟨[], false, false, ["a".data, []], some TEXT, 0⟩ := by
  rw [c2_blank_line_step "plain".data 1 [] ⟨[], false, false, ["a".data], some TEXT, 0⟩ rfl rfl]
  decide

/-- C4 counterexample: in `"# note"` the detected dialect is not
attached to the metadata of the produced `Comment` element — directly
emitted elements (`Role`, `Comment`, `Whitespace`) never receive the
`syntax` key. -/
theorem c4_counterexample :
    ¬ (∀ e ∈ parsePrompt "# note".data,
        e.metadata.syn = some (detectTemplateSyn "# note".data)) := by
  decide

/-- C4 amended: the dialect is computed once per document and attached
to the metadata of every buffer-flushed element (`Text`, `Instruction`,
`Example`); directly emitted `Role`, `Comment` and `Whitespace`
elements carry no `syntax` metadata. -/
theorem c4_dialect_metadata (text : List Char) (e : PromptElement)
    (he : e ∈ parsePrompt text) :
    ((e.type = TEXT ∨ e.type = INSTRUCTION ∨ e.type = EXAMPLE) →
      e.metadata.syn = some (detectTemplateSyn text)) ∧
    ((e.type = ROLE ∨ e.type = COMMENT ∨ e.type = WHITESPACE) →
      e.metadata.syn = none) := by
  unfold parsePrompt at he
  simp only [List.mem_map] at he
  obtain ⟨e0, he0, hmap⟩ := he
  have hrun := runLines_synOk (detectTemplateSyn text) (splitNl text) 0
    ⟨[], false, false, [], none, 0⟩ (by intro e h; simp at h) (Or.inl rfl)
  have hfl := flushElement_synOk _ _ hrun.1 hrun.2
  have hok := hfl.1 e0 he0
  have ha := annotateElement_syn e0
  subst hmap
  constructor
  · intro ht
    rw [ha.2.1]
    exact hok.1 (by rw [ha.1] at ht; exact ht)
  · intro ht
    rw [ha.2.1]
    exact hok.2 (by rw [ha.1] at ht; exact ht)

/-- Witness for the C4 amended theorem: the single `Text` element of
`"hello"` carries the detected dialect (`plain`). -/
theorem c4_dialect_metadata_witness :
    ({ type := TEXT, content := "hello".data, lineStart := 0, lineEnd := 0,
       raw := "hello".data,
       metadata := { syn := some "plain".data } } : PromptElement).metadata.syn =
      some (detectTemplateSyn "hello".data) :=
  (c4_dialect_metadata "hello".data _ (by decide)).1 (Or.inl rfl)

theorem flushElement_elements_cons (syn : List Char) (st : ParseState)
    (x : List Char) (xs : List (List Char)) (hb : st.buf = x :: xs) :
    flushElement syn st =
      { st with
        elements := st.elements ++
          [{ type := st.bufType.getD TEXT, content := joinNl (x :: xs),
             lineStart := st.startLine,
             lineEnd := st.startLine + (x :: xs).length - 1,
             raw := joinNl (x :: xs),
             metadata := { syn := some syn } }],
        buf := [], bufType := none } := by
  unfold flushElement
  rw [hb]

/-- C9: an opening code fence with no matching closing fence does not
make segmentation fail (the embedding is total by construction): every
line from the last opening fence through end of input lands in a
single `Example` element, which is the final element of the
segmentation. The hypotheses say the fence line `f` is preceded by an
even number of fence lines (so the code-block flag is off when `f` is
reached, i.e. `f` opens a block) and followed by none. -/
theorem c9_unterminated_fence (text : List Char) (pre post : List (List Char)) (f : List Char)
    (hsplit : splitNl text = pre ++ f :: post)
    (hf : isFence f = true)
    (hpost : ∀ l ∈ post, isFence l = false)
    (heven : pre.countP (fun l => isFence l) % 2 = 0) :
    ∃ e, (parsePrompt text).getLast? = some e ∧ e.type = EXAMPLE ∧
      e.lineStart = pre.length ∧ e.lineEnd = pre.length + post.length ∧
      e.content = joinNl (f :: post) := by
  have hicb : (runLines (detectTemplateSyn text) 0 pre
      ⟨[], false, false, [], none, 0⟩).inCodeBlock = false := by
    rw [runLines_inCodeBlock]
    have hdec : decide (pre.countP (fun l => isFence l) % 2 = 1) = false := by
      simp
      omega
    simp [hdec]
  have hstep : processLine (detectTemplateSyn text) pre.length f
      (runLines (detectTemplateSyn text) 0 pre ⟨[], false, false, [], none, 0⟩) =
      { flushElement (detectTemplateSyn text)
          (runLines (detectTemplateSyn text) 0 pre ⟨[], false, false, [], none, 0⟩) with
        startLine := pre.length, bufType := some EXAMPLE,
        inCodeBlock := true, buf := [f] } := by
    unfold processLine
    unfold isFence at hf
    rw [if_pos hf, hicb]
    simp [flushElement_buf]
  have hrun : runLines (detectTemplateSyn text) 0 (splitNl text)
      ⟨[], false, false, [], none, 0⟩ =
      { flushElement (detectTemplateSyn text)
          (runLines (detectTemplateSyn text) 0 pre ⟨[], false, false, [], none, 0⟩) with
        startLine := pre.length, bufType := some EXAMPLE,
        inCodeBlock := true, buf := f :: post } := by
    rw [hsplit, runLines_append]
    have h0 : (0 : Nat) + pre.length = pre.length := by omega
    rw [h0]
    show runLines (detectTemplateSyn text) (pre.length + 1) post
        (processLine (detectTemplateSyn text) pre.length f
          (runLines (detectTemplateSyn text) 0 pre ⟨[], false, false, [], none, 0⟩)) = _
    rw [hstep, runLines_codeBlock_absorb (detectTemplateSyn text) post (pre.length + 1)
      _ rfl hpost]
    simp
  refine ⟨annotateElement
    { type := EXAMPLE, content := joinNl (f :: post),
      lineStart := pre.length, lineEnd := pre.length + (f :: post).length - 1,
      raw := joinNl (f :: post),
      metadata := { syn := some (detectTemplateSyn text) } }, ?_, ?_, ?_, ?_, ?_⟩
  · show (parsePrompt text).getLast? = _
    simp only [parsePrompt]
    rw [hrun]
    rw [flushElement_elements_cons (detectTemplateSyn text) _ f post rfl]
    rw [List.map_append]
    simp [Option.getD]
  · have := (annotateElement_syn
      { type := EXAMPLE, content := joinNl (f :: post),
        lineStart := pre.length, lineEnd := pre.length + (f :: post).length - 1,
        raw := joinNl (f :: post),
        metadata := { syn := some (detectTemplateSyn text) } }).1
    rw [this]
  · have := (annotateElement_syn
      { type := EXAMPLE, content := joinNl (f :: post),
        lineStart := pre.length, lineEnd := pre.length + (f :: post).length - 1,
        raw := joinNl (f :: post),
        metadata := { syn := some (detectTemplateSyn text) } }).2.2.2.1
    rw [this]
  · have := (annotateElement_syn
      { type := EXAMPLE, content := joinNl (f :: post),
        lineStart := pre.length, lineEnd := pre.length + (f :: post).length - 1,
        raw := joinNl (f :: post),
        metadata := { syn := some (detectTemplateSyn text) } }).2.2.2.2
    rw [this]
    show pre.length + (post.length + 1) - 1 = pre.length + post.length
    omega
  · have := (annotateElement_syn
      { type := EXAMPLE, content := joinNl (f :: post),
        lineStart := pre.length, lineEnd := pre.length + (f :: post).length - 1,
        raw := joinNl (f :: post),
        metadata := { syn := some (detectTemplateSyn text) } }).2.2.1
    rw [this]

/-- Witness for C9: the two-line input whose first line is an
unterminated opening fence yields a final `Example` element spanning
both lines. -/
theorem c9_unterminated_fence_witness :
    ((parsePrompt "```\nabc".data).getLast?.map
      (fun e => (e.type, e.lineStart, e.lineEnd, e.content))) =
      some (EXAMPLE, 0, 1, "```\nabc".data) := by
  obtain ⟨e, h1, h2, h3, h4, h5⟩ := c9_unterminated_fence "```\nabc".data []
    ["abc".data] "```".data (by decide) (by decide) (by decide) (by decide)
  rw [h1]
  have hval : (e.type, e.lineStart, e.lineEnd, e.content) =
      (EXAMPLE, 0, 1, "```\nabc".data) := by
    rw [h2, h3, h4, h5]
    decide
  simp only [Option.map_some']
  rw [hval]

/-- C7: for any two texts and any labels, the added-variable set of
comparing A against B equals the removed-variable set of comparing B
against A — both are the set difference of B's variables minus A's. -/
theorem c7_variable_symmetry (A B lA lB lA' lB' : List Char) :
    (diffPrompts A B lA lB).addedVariables =
      (diffPrompts B A lB' lA').removedVariables := rfl

/-- C5: for every aligned pair with at least one side present, the diff
builder classifies it as Unchanged (both present, identical content),
Modified with `details.similarity = similarity(old, new)` (both
present, differing content), Added (only new present) or Removed (only
old present); and the details mapping carries a similarity entry
exactly when the change kind is Modified. -/
theorem c5_classification (p : Option PromptElement × Option PromptElement)
    (hp : p ≠ (none, none)) :
    ∃ d, buildDiff p = some d ∧
      (∀ o n, p = (some o, some n) → o.content = n.content →
        d.changeType = ChangeType.UNCHANGED) ∧
      (∀ o n, p = (some o, some n) → o.content ≠ n.content →
        d.changeType = ChangeType.MODIFIED ∧
        d.details = some (computeSimilarity o.content n.content)) ∧
      (∀ n, p = (none, some n) → d.changeType = ChangeType.ADDED) ∧
      (∀ o, p = (some o, none) → d.changeType = ChangeType.REMOVED) ∧
      (d.details.isSome ↔ d.changeType = ChangeType.MODIFIED) := by
  obtain ⟨po, pn⟩ := p
  rcases po with _ | o <;> rcases pn with _ | n
  · exact absurd rfl hp
  · refine ⟨_, rfl, ?_, ?_, ?_, ?_, ?_⟩
    · intro o' n' h
      simp at h
    · intro o' n' h
      simp at h
    · intro n' _
      rfl
    · intro o' h
      simp at h
    · simp
  · refine ⟨_, rfl, ?_, ?_, ?_, ?_, ?_⟩
    · intro o' n' h
      simp at h
    · intro o' n' h
      simp at h
    · intro n' h
      simp at h
    · intro o' _
      rfl
    · simp
  · by_cases hc : o.content = n.content
    · refine ⟨{ changeType := ChangeType.UNCHANGED, elementType := o.type,
                oldContent := some o.content, newContent := some n.content,
                oldLine := some o.lineStart, newLine := some n.lineStart },
        ?_, ?_, ?_, ?_, ?_, ?_⟩
      · simp only [buildDiff]
        rw [if_pos hc]
      · intro o' n' _ _
        rfl
      · intro o' n' h hne
        simp only [Prod.mk.injEq, Option.some.injEq] at h
        obtain ⟨rfl, rfl⟩ := h
        exact absurd hc hne
      · intro n' h
        simp at h
      · intro o' h
        simp at h
      · simp
    · refine ⟨{ changeType := ChangeType.MODIFIED, elementType := o.type,
                oldContent := some o.content, newContent := some n.content,
                oldLine := some o.lineStart, newLine := some n.lineStart,
                details := some (computeSimilarity o.content n.content) },
        ?_, ?_, ?_, ?_, ?_, ?_⟩
      · simp only [buildDiff]
        rw [if_neg hc]
      · intro o' n' h heq
        simp only [Prod.mk.injEq, Option.some.injEq] at h
        obtain ⟨rfl, rfl⟩ := h
        exact absurd heq hc
      · intro o' n' h _
        simp only [Prod.mk.injEq, Option.some.injEq] at h
        obtain ⟨rfl, rfl⟩ := h
        exact ⟨rfl, rfl⟩
      · intro n' h
        simp at h
      · intro o' h
        simp at h
      · simp

/-- Witness for C5: a pair of identical one-line `Text` elements is
classified Unchanged. -/
theorem c5_classification_witness :
    (buildDiff (some ⟨TEXT, "x".data, 0, 0, "x".data, {}⟩,
                some ⟨TEXT, "x".data, 0, 0, "x".data, {}⟩)).map
        (fun d => d.changeType) = some ChangeType.UNCHANGED := by
  obtain ⟨d, hd, hu, _, _, _, _⟩ := c5_classification
    (some ⟨TEXT, "x".data, 0, 0, "x".data, {}⟩,
     some ⟨TEXT, "x".data, 0, 0, "x".data, {}⟩) (by decide)
  rw [hd]
  simp only [Option.map_some']
  rw [hu _ _ rfl rfl]

/-! ### The similarity-pass candidate search (for C6) -/

/-- A candidate of the similarity pass: an unused old element of the
same kind as the new element. -/
def fzCand (ne : PromptElement) (oldUsed : List Nat) (q : Nat × PromptElement) : Prop :=
  q.1 ∉ oldUsed ∧ q.2.type = ne.type

/-- The similarity score of a candidate. -/
def fzScore (ne : PromptElement) (q : Nat × PromptElement) : ℚ :=
  computeSimilarity q.2.content ne.content

/-- Invariant of the candidate-scan accumulator over the processed
prefix. -/
def FzInv (ne : PromptElement) (oldUsed : List Nat)
    (processed : List (Nat × PromptElement))
    (acc : Option (Nat × PromptElement) × ℚ) : Prop :=
  (acc.1 = none → acc.2 = 1/2 ∧
    ∀ q ∈ processed, fzCand ne oldUsed q → fzScore ne q ≤ 1/2) ∧
  (∀ q, acc.1 = some q → acc.2 = fzScore ne q ∧ fzCand ne oldUsed q ∧
    1/2 < fzScore ne q ∧
    (∀ q' ∈ processed, fzCand ne oldUsed q' → fzScore ne q' ≤ fzScore ne q) ∧
    ∃ l1 l2, processed = l1 ++ q :: l2 ∧
      ∀ q' ∈ l1, fzCand ne oldUsed q' → fzScore ne q' < fzScore ne q)

theorem fzInv_half_le (ne : PromptElement) (oldUsed : List Nat)
    (processed : List (Nat × PromptElement))
    (acc : Option (Nat × PromptElement) × ℚ) (h : FzInv ne oldUsed processed acc) :
    1/2 ≤ acc.2 ∧
    (∀ q' ∈ processed, fzCand ne oldUsed q' → fzScore ne q' ≤ acc.2) := by
  rcases hacc : acc.1 with _ | qb
  · obtain ⟨heq, hall⟩ := h.1 hacc
    exact ⟨le_of_eq heq.symm, by rw [heq]; exact hall⟩
  · obtain ⟨heq, _, hgt, hall, _⟩ := h.2 qb hacc
    exact ⟨by rw [heq]; exact le_of_lt hgt, by rw [heq]; exact hall⟩

theorem fuzzyBestAux_spec (ne : PromptElement) (oldUsed : List Nat) :
    ∀ (rest processed : List (Nat × PromptElement))
      (acc : Option (Nat × PromptElement) × ℚ),
      FzInv ne oldUsed processed acc →
      FzInv ne oldUsed (processed ++ rest) (fuzzyBestAux ne oldUsed rest acc) := by
  intro rest
  induction rest with
  | nil =>
    intro processed acc h
    simpa [fuzzyBestAux] using h
  | cons q rest' ih =>
    intro processed acc h
    have hkey : FzInv ne oldUsed (processed ++ [q])
        (if q.1 ∉ oldUsed ∧ q.2.type = ne.type then
          if acc.2 < computeSimilarity q.2.content ne.content then
            (some q, computeSimilarity q.2.content ne.content)
          else acc
        else acc) := by
      by_cases hcand : q.1 ∉ oldUsed ∧ q.2.type = ne.type
      · rw [if_pos hcand]
        by_cases hlt : acc.2 < computeSimilarity q.2.content ne.content
        · rw [if_pos hlt]
          have hbase := fzInv_half_le ne oldUsed processed acc h
          constructor
          · intro hn
            simp at hn
          · intro qb hqb
            simp only [Option.some.injEq] at hqb
            subst hqb
            refine ⟨rfl, hcand, lt_of_le_of_lt hbase.1 hlt, ?_, processed, [], by simp, ?_⟩
            · intro q' hq' hc'
              rcases List.mem_append.mp hq' with hin | hin
              · exact le_of_lt (lt_of_le_of_lt (hbase.2 q' hin hc') hlt)
              · rw [List.mem_singleton] at hin
                subst hin
                exact le_rfl
            · intro q' hq' hc'
              exact lt_of_le_of_lt (hbase.2 q' hq' hc') hlt
        · rw [if_neg hlt]
          have hge : computeSimilarity q.2.content ne.content ≤ acc.2 :=
            le_of_not_lt hlt
          constructor
          · intro hn
            obtain ⟨heq, hall⟩ := h.1 hn
            refine ⟨heq, ?_⟩
            intro q' hq' hc'
            rcases List.mem_append.mp hq' with hin | hin
            · exact hall q' hin hc'
            · rw [List.mem_singleton] at hin
              subst hin
              rw [← heq]
              exact hge
          · intro qb hqb
            obtain ⟨heq, hcb, hgt, hall, l1, l2, hsplit, hstrict⟩ := h.2 qb hqb
            refine ⟨heq, hcb, hgt, ?_, l1, l2 ++ [q], by rw [hsplit]; simp, hstrict⟩
            intro q' hq' hc'
            rcases List.mem_append.mp hq' with hin | hin
            · exact hall q' hin hc'
            · rw [List.mem_singleton] at hin
              subst hin
              rw [← heq]
              exact hge
      · rw [if_neg hcand]
        constructor
        · intro hn
          obtain ⟨heq, hall⟩ := h.1 hn
          refine ⟨heq, ?_⟩
          intro q' hq' hc'
          rcases List.mem_append.mp hq' with hin | hin
          · exact hall q' hin hc'
          · rw [List.mem_singleton] at hin
            subst hin
            exact absurd hc' hcand
        · intro qb hqb
          obtain ⟨heq, hcb, hgt, hall, l1, l2, hsplit, hstrict⟩ := h.2 qb hqb
          refine ⟨heq, hcb, hgt, ?_, l1, l2 ++ [q], by rw [hsplit]; simp, hstrict⟩
          intro q' hq' hc'
          rcases List.mem_append.mp hq' with hin | hin
          · exact hall q' hin hc'
          · rw [List.mem_singleton] at hin
            subst hin
            exact absurd hc' hcand
    have := ih (processed ++ [q]) _ hkey
    simpa [fuzzyBestAux] using this

/-- C6: the similarity pass scans all remaining unused old elements of
the same kind; it returns no match exactly when no candidate scores
strictly above `0.5`; a returned match is a candidate scoring strictly
above `0.5`, is maximal among all candidates, is the first-found
maximum in old-sequence order (every earlier candidate scores strictly
less), and a successful match appends the pair and marks both indices
used. -/
theorem c6_similarity_pass (ne : PromptElement) (oldF : List (Nat × PromptElement))
    (oldUsed : List Nat) :
    (fuzzyBest ne oldF oldUsed = none →
      ∀ q ∈ oldF, fzCand ne oldUsed q → fzScore ne q ≤ 1/2) ∧
    (∀ q, fuzzyBest ne oldF oldUsed = some q →
      fzCand ne oldUsed q ∧ 1/2 < fzScore ne q ∧
      (∀ q' ∈ oldF, fzCand ne oldUsed q' → fzScore ne q' ≤ fzScore ne q) ∧
      ∃ l1 l2, oldF = l1 ++ q :: l2 ∧
        ∀ q' ∈ l1, fzCand ne oldUsed q' → fzScore ne q' < fzScore ne q) ∧
    (∀ (st : AlignState) (p : Nat × PromptElement), p.1 ∉ st.newUsed →
      ∀ q, fuzzyBest p.2 oldF st.oldUsed = some q →
        fuzzyStep oldF st p =
          ⟨st.pairs ++ [(some q.2, some p.2)],
            q.1 :: st.oldUsed, p.1 :: st.newUsed⟩) := by
  have hbase : FzInv ne oldUsed [] (none, 1/2) := by
    constructor
    · intro _
      exact ⟨rfl, fun q hq => absurd hq (List.not_mem_nil q)⟩
    · intro q hq
      simp at hq
  have hfin := fuzzyBestAux_spec ne oldUsed oldF [] (none, 1/2) hbase
  rw [List.nil_append] at hfin
  refine ⟨?_, ?_, ?_⟩
  · intro hn q hq hc
    exact (hfin.1 hn).2 q hq hc
  · intro q hq
    obtain ⟨_, hcb, hgt, hall, l1, l2, hsplit, hstrict⟩ := hfin.2 q hq
    exact ⟨hcb, hgt, hall, l1, l2, hsplit, hstrict⟩
  · intro st p hp q hq
    unfold fuzzyStep
    rw [if_neg hp, hq]

/-- Witness for C6: with one unused empty-content `Text` candidate and
an empty-content new element (score `1.0 > 0.5`), the similarity step
appends the pair and marks index 0 old-used and index 1 new-used. -/
theorem c6_similarity_pass_witness :
    fuzzyStep [(0, ⟨TEXT, [], 0, 0, [], {}⟩)] ⟨[], [], []⟩
        (1, ⟨TEXT, [], 1, 1, [], {}⟩) =
      ⟨[(some ⟨TEXT, [], 0, 0, [], {}⟩, some ⟨TEXT, [], 1, 1, [], {}⟩)],
        [0], [1]⟩ := by
  have hb : fuzzyBest ⟨TEXT, [], 1, 1, [], {}⟩ [(0, ⟨TEXT, [], 0, 0, [], {}⟩)] [] =
      some (0, ⟨TEXT, [], 0, 0, [], {}⟩) := by
    unfold fuzzyBest
    norm_num [fuzzyBestAux, computeSimilarity]
  exact (c6_similarity_pass ⟨TEXT, [], 1, 1, [], {}⟩
    [(0, ⟨TEXT, [], 0, 0, [], {}⟩)] []).2.2 ⟨[], [], []⟩
    (1, ⟨TEXT, [], 1, 1, [], {}⟩) (List.not_mem_nil 1)
    (0, ⟨TEXT, [], 0, 0, [], {}⟩) hb

/-! ### Alignment totality (for C3) -/

theorem enumFrom_filter_map_snd (p : PromptElement → Bool) :
    ∀ (l : List PromptElement) (n : Nat),
      ((List.enumFrom n l).filter (fun q => p q.2)).map Prod.snd = l.filter p := by
  intro l
  induction l with
  | nil => intro n; rfl
  | cons x rest ih =>
    intro n
    show (((n, x) :: List.enumFrom (n + 1) rest).filter (fun q => p q.2)).map Prod.snd = _
    by_cases hp : p x = true
    · rw [List.filter_cons_of_pos (by simpa using hp), List.filter_cons_of_pos hp]
      simp only [List.map_cons]
      rw [ih (n + 1)]
    · rw [List.filter_cons_of_neg (by simpa using hp), List.filter_cons_of_neg hp]
      exact ih (n + 1)

theorem elemFilter_map_snd (es : List PromptElement) :
    (elemFilter es).map Prod.snd =
      es.filter (fun e => decide (e.type ≠ WHITESPACE)) := by
  unfold elemFilter
  exact enumFrom_filter_map_snd (fun e => decide (e.type ≠ WHITESPACE)) es 0

theorem elemFilter_fst_nodup (es : List PromptElement) :
    ((elemFilter es).map Prod.fst).Nodup := by
  unfold elemFilter
  have hnd : ((List.enum es).map Prod.fst).Nodup := by
    rw [List.enum_map_fst]
    exact List.nodup_range es.length
  exact hnd.sublist ((List.filter_sublist _).map Prod.fst)

theorem filter_insert_perm (used : List Nat) (oi : Nat) (oe : PromptElement) :
    ∀ (l : List (Nat × PromptElement)), (l.map Prod.fst).Nodup →
      (oi, oe) ∈ l → oi ∉ used →
      ((l.filter (fun q => decide (q.1 ∈ oi :: used))).map Prod.snd).Perm
        (oe :: (l.filter (fun q => decide (q.1 ∈ used))).map Prod.snd) := by
  intro l
  induction l with
  | nil => intro _ hmem; exact absurd hmem (List.not_mem_nil _)
  | cons x rest ih =>
    intro hnd hmem hni
    have hndrest : (rest.map Prod.fst).Nodup := (List.nodup_cons.mp (by simpa using hnd)).2
    have hxnotin : x.1 ∉ rest.map Prod.fst := (List.nodup_cons.mp (by simpa using hnd)).1
    rcases List.mem_cons.mp hmem with hx | hx
    · have hx1 : x.1 = oi := by rw [← hx]
      have hx2 : x.2 = oe := by rw [← hx]
      have hfilter_eq : rest.filter (fun q => decide (q.1 ∈ oi :: used)) =
          rest.filter (fun q => decide (q.1 ∈ used)) := by
        apply List.filter_congr
        intro q hq
        have hqne : q.1 ≠ oi := by
          intro hcontra
          apply hxnotin
          rw [hx1, ← hcontra]
          exact List.mem_map.mpr ⟨q, hq, rfl⟩
        simp only [decide_eq_decide, List.mem_cons]
        constructor
        · intro hor
          rcases hor with h | h
          · exact absurd h hqne
          · exact h
        · exact Or.inr
      rw [List.filter_cons_of_pos (by simp [hx1]),
        List.filter_cons_of_neg (by simp [hx1, hni]), hfilter_eq]
      simp only [List.map_cons, hx2]
      exact List.Perm.refl _
    · have hxne : x.1 ≠ oi := by
        intro hcontra
        apply hxnotin
        rw [hcontra]
        exact List.mem_map.mpr ⟨(oi, oe), hx, rfl⟩
      by_cases hxu : x.1 ∈ used
      · rw [List.filter_cons_of_pos (by simp [List.mem_cons, hxu]),
          List.filter_cons_of_pos (by simp [hxu])]
        simp only [List.map_cons]
        refine ((ih hndrest hx hni).cons x.2).trans ?_
        exact List.Perm.swap oe x.2 _
      · rw [List.filter_cons_of_neg (by simp [List.mem_cons, hxu, hxne]),
          List.filter_cons_of_neg (by simp [hxu])]
        exact ih hndrest hx hni

/-- Invariant of the alignment passes: matched pairs correspond (as
multisets) to the used indices on each side, and every matched pair has
both sides present. -/
def AlignInv (oldF newF : List (Nat × PromptElement)) (st : AlignState) : Prop :=
  ((st.pairs.filterMap Prod.fst).Perm
    ((oldF.filter (fun q => decide (q.1 ∈ st.oldUsed))).map Prod.snd)) ∧
  ((st.pairs.filterMap Prod.snd).Perm
    ((newF.filter (fun q => decide (q.1 ∈ st.newUsed))).map Prod.snd)) ∧
  (∀ p ∈ st.pairs, ∃ o n, p = (some o, some n))

theorem matchStep_inv (oldF newF : List (Nat × PromptElement))
    (hndo : (oldF.map Prod.fst).Nodup) (hndn : (newF.map Prod.fst).Nodup)
    (st : AlignState) (p oq : Nat × PromptElement)
    (hinv : AlignInv oldF newF st) (hp : p ∈ newF) (hpu : p.1 ∉ st.newUsed)
    (hoq : oq ∈ oldF) (hou : oq.1 ∉ st.oldUsed) :
    AlignInv oldF newF ⟨st.pairs ++ [(some oq.2, some p.2)],
      oq.1 :: st.oldUsed, p.1 :: st.newUsed⟩ := by
  obtain ⟨h1, h2, h3⟩ := hinv
  refine ⟨?_, ?_, ?_⟩
  · show ((st.pairs ++ [(some oq.2, some p.2)]).filterMap Prod.fst).Perm _
    rw [List.filterMap_append]
    have hins := filter_insert_perm st.oldUsed oq.1 oq.2 oldF hndo
      (by simpa using hoq) hou
    have hstep : ((st.pairs.filterMap Prod.fst) ++ [oq.2]).Perm
        (oq.2 :: (st.pairs.filterMap Prod.fst)) := List.perm_append_singleton _ _
    exact (hstep.trans (h1.cons oq.2)).trans hins.symm
  · show ((st.pairs ++ [(some oq.2, some p.2)]).filterMap Prod.snd).Perm _
    rw [List.filterMap_append]
    have hins := filter_insert_perm st.newUsed p.1 p.2 newF hndn
      (by simpa using hp) hpu
    have hstep : ((st.pairs.filterMap Prod.snd) ++ [p.2]).Perm
        (p.2 :: (st.pairs.filterMap Prod.snd)) := List.perm_append_singleton _ _
    exact (hstep.trans (h2.cons p.2)).trans hins.symm
  · intro q hq
    rcases List.mem_append.mp hq with h | h
    · exact h3 q h
    · rw [List.mem_singleton] at h
      exact ⟨oq.2, p.2, h⟩

theorem exactStep_cases (oldF : List (Nat × PromptElement)) (st : AlignState)
    (p : Nat × PromptElement) :
    exactStep oldF st p = st ∨
    ∃ q, oldF.find? (fun q => decide (q.1 ∉ st.oldUsed) &&
        decide (q.2.type = p.2.type) && decide (q.2.content = p.2.content)) = some q ∧
      exactStep oldF st p =
        ⟨st.pairs ++ [(some q.2, some p.2)], q.1 :: st.oldUsed, p.1 :: st.newUsed⟩ := by
  unfold exactStep
  cases hfind : oldF.find? (fun q => decide (q.1 ∉ st.oldUsed) &&
      decide (q.2.type = p.2.type) && decide (q.2.content = p.2.content)) with
  | none => exact Or.inl rfl
  | some q => exact Or.inr ⟨q, rfl, rfl⟩

theorem exactFold_inv (oldF newF : List (Nat × PromptElement))
    (hndo : (oldF.map Prod.fst).Nodup) (hndn : (newF.map Prod.fst).Nodup) :
    ∀ (items : List (Nat × PromptElement)) (st : AlignState),
      AlignInv oldF newF st → (∀ q ∈ items, q ∈ newF) →
      (items.map Prod.fst).Nodup → (∀ q ∈ items, q.1 ∉ st.newUsed) →
      AlignInv oldF newF (items.foldl (exactStep oldF) st) := by
  intro items
  induction items with
  | nil => intro st h _ _ _; exact h
  | cons p rest ih =>
    intro st hinv hsub hnd hnu
    have hp : p ∈ newF := hsub p (List.mem_cons_self p rest)
    have hpu : p.1 ∉ st.newUsed := hnu p (List.mem_cons_self p rest)
    have hndrest : (rest.map Prod.fst).Nodup := (List.nodup_cons.mp (by simpa using hnd)).2
    have hpnotin : p.1 ∉ rest.map Prod.fst := (List.nodup_cons.mp (by simpa using hnd)).1
    show AlignInv oldF newF (rest.foldl (exactStep oldF) (exactStep oldF st p))
    rcases exactStep_cases oldF st p with hcase | ⟨q, hfind, hcase⟩
    · rw [hcase]
      exact ih st hinv (fun q hq => hsub q (List.mem_cons_of_mem p hq)) hndrest
        (fun q hq => hnu q (List.mem_cons_of_mem p hq))
    · have hoq : q ∈ oldF := List.mem_of_find?_eq_some hfind
      have hpred := List.find?_some hfind
      simp only [Bool.and_eq_true, decide_eq_true_eq] at hpred
      have hou : q.1 ∉ st.oldUsed := hpred.1.1
      rw [hcase]
      refine ih _ (matchStep_inv oldF newF hndo hndn st p q hinv hp hpu hoq hou)
        (fun q' hq' => hsub q' (List.mem_cons_of_mem p hq')) hndrest ?_
      intro q' hq'
      show q'.1 ∉ p.1 :: st.newUsed
      rw [List.mem_cons]
      rintro (h | h)
      · exact hpnotin (h ▸ List.mem_map.mpr ⟨q', hq', rfl⟩)
      · exact hnu q' (List.mem_cons_of_mem p hq') h

theorem fuzzyFold_inv (oldF newF : List (Nat × PromptElement))
    (hndo : (oldF.map Prod.fst).Nodup) (hndn : (newF.map Prod.fst).Nodup) :
    ∀ (items : List (Nat × PromptElement)) (st : AlignState),
      AlignInv oldF newF st → (∀ q ∈ items, q ∈ newF) →
      AlignInv oldF newF (items.foldl (fuzzyStep oldF) st) := by
  intro items
  induction items with
  | nil => intro st h _; exact h
  | cons p rest ih =>
    intro st hinv hsub
    have hp : p ∈ newF := hsub p (List.mem_cons_self p rest)
    show AlignInv oldF newF (rest.foldl (fuzzyStep oldF) (fuzzyStep oldF st p))
    have hrest : ∀ q ∈ rest, q ∈ newF := fun q hq => hsub q (List.mem_cons_of_mem p hq)
    by_cases hmem : p.1 ∈ st.newUsed
    · rw [show fuzzyStep oldF st p = st from by unfold fuzzyStep; rw [if_pos hmem]]
      exact ih st hinv hrest
    · cases hb : fuzzyBest p.2 oldF st.oldUsed with
      | none =>
        rw [show fuzzyStep oldF st p = st from by
          unfold fuzzyStep; rw [if_neg hmem, hb]]
        exact ih st hinv hrest
      | some q =>
        have hstep := (c6_similarity_pass p.2 oldF st.oldUsed).2.2 st p hmem q hb
        obtain ⟨hcand, _, _, l1, l2, hsplit, _⟩ :=
          (c6_similarity_pass p.2 oldF st.oldUsed).2.1 q hb
        have hoq : q ∈ oldF := by
          rw [hsplit]
          exact List.mem_append_right l1 (List.mem_cons_self q l2)
        have hou : q.1 ∉ st.oldUsed := hcand.1
        rw [hstep]
        exact ih _ (matchStep_inv oldF newF hndo hndn st p q hinv hp hmem hoq hou) hrest

theorem alignInv_final (old new : List PromptElement) :
    AlignInv (elemFilter old) (elemFilter new)
      ((elemFilter new).foldl (fuzzyStep (elemFilter old))
        ((elemFilter new).foldl (exactStep (elemFilter old)) ⟨[], [], []⟩)) := by
  have hndo := elemFilter_fst_nodup old
  have hndn := elemFilter_fst_nodup new
  have hbase : AlignInv (elemFilter old) (elemFilter new) ⟨[], [], []⟩ := by
    refine ⟨?_, ?_, ?_⟩
    · simp [AlignInv]
    · simp [AlignInv]
    · intro p hp
      simp at hp
  have hexact := exactFold_inv (elemFilter old) (elemFilter new) hndo hndn
    (elemFilter new) ⟨[], [], []⟩ hbase (fun q hq => hq) hndn
    (fun q _ => List.not_mem_nil q.1)
  exact fuzzyFold_inv (elemFilter old) (elemFilter new) hndo hndn
    (elemFilter new) _ hexact (fun q hq => hq)

/-- The aligner never produces an empty pair: every aligned pair has at
least one side present. -/
theorem alignElements_ne_nonenone (old new : List PromptElement) :
    ∀ p ∈ alignElements old new, p ≠ (none, none) := by
  intro p hp
  unfold alignElements at hp
  simp only [List.mem_append, List.mem_map] at hp
  rcases hp with (hp | ⟨q, _, hq⟩) | ⟨q, _, hq⟩
  · obtain ⟨o, n, rfl⟩ := (alignInv_final old new).2.2 p hp
    simp
  · rw [← hq]
    simp
  · rw [← hq]
    simp

theorem buildDiff_isSome (p : Option PromptElement × Option PromptElement)
    (hp : p ≠ (none, none)) : (buildDiff p).isSome := by
  obtain ⟨po, pn⟩ := p
  rcases po with _ | o <;> rcases pn with _ | n
  · exact absurd rfl hp
  · rfl
  · rfl
  · simp only [buildDiff]
    by_cases hc : o.content = n.content
    · rw [if_pos hc]
      rfl
    · rw [if_neg hc]
      rfl

theorem filterMap_buildDiff_length (l : List (Option PromptElement × Option PromptElement))
    (h : ∀ p ∈ l, p ≠ (none, none)) :
    (l.filterMap buildDiff).length = l.length := by
  induction l with
  | nil => rfl
  | cons p rest ih =>
    obtain ⟨d, hd⟩ := Option.isSome_iff_exists.mp
      (buildDiff_isSome p (h p (List.mem_cons_self p rest)))
    rw [List.filterMap_cons, hd, List.length_cons, List.length_cons,
      ih (fun q hq => h q (List.mem_cons_of_mem p hq))]

theorem elementDiff_count_partition (ds : List ElementDiff) :
    ds.countP (fun d => decide (d.changeType = ChangeType.ADDED)) +
    ds.countP (fun d => decide (d.changeType = ChangeType.REMOVED)) +
    ds.countP (fun d => decide (d.changeType = ChangeType.MODIFIED)) +
    ds.countP (fun d => decide (d.changeType = ChangeType.UNCHANGED)) = ds.length := by
  induction ds with
  | nil => rfl
  | cons d rest ih =>
    simp only [List.countP_cons, List.length_cons]
    cases h : d.changeType <;> simp [h] <;> omega

theorem filterMap_fst_removed (l : List (Nat × PromptElement)) :
    ((l.map (fun q => ((some q.2 : Option PromptElement),
        (none : Option PromptElement)))).filterMap Prod.fst) = l.map Prod.snd := by
  induction l with
  | nil => rfl
  | cons x r ih => simp [List.filterMap_cons, ih]

theorem filterMap_snd_removed (l : List (Nat × PromptElement)) :
    ((l.map (fun q => ((some q.2 : Option PromptElement),
        (none : Option PromptElement)))).filterMap Prod.snd) = [] := by
  induction l with
  | nil => rfl
  | cons x r ih => simp [List.filterMap_cons, ih]

theorem filterMap_fst_added (l : List (Nat × PromptElement)) :
    ((l.map (fun q => ((none : Option PromptElement),
        (some q.2 : Option PromptElement)))).filterMap Prod.fst) = [] := by
  induction l with
  | nil => rfl
  | cons x r ih => simp [List.filterMap_cons, ih]

theorem filterMap_snd_added (l : List (Nat × PromptElement)) :
    ((l.map (fun q => ((none : Option PromptElement),
        (some q.2 : Option PromptElement)))).filterMap Prod.snd) = l.map Prod.snd := by
  induction l with
  | nil => rfl
  | cons x r ih => simp [List.filterMap_cons, ih]

theorem filter_used_unused_perm (used : List Nat) (l : List (Nat × PromptElement)) :
    ((l.filter (fun q => decide (q.1 ∈ used))).map Prod.snd ++
      (l.filter (fun q => decide (q.1 ∉ used))).map Prod.snd).Perm
      (l.map Prod.snd) := by
  rw [← List.map_append]
  refine List.Perm.map Prod.snd ?_
  have heq : l.filter (fun q => decide (q.1 ∉ used)) =
      l.filter (fun q => !(decide (q.1 ∈ used))) := by
    apply List.filter_congr
    intro q _
    exact decide_not
  rw [heq]
  exact List.filter_append_perm _ l

theorem align_assemble (oldF newF : List (Nat × PromptElement)) (st2 : AlignState)
    (hinv : AlignInv oldF newF st2) :
    (((st2.pairs
      ++ (oldF.filter (fun q => decide (q.1 ∉ st2.oldUsed))).map
          (fun q => ((some q.2 : Option PromptElement), (none : Option PromptElement)))
      ++ (newF.filter (fun q => decide (q.1 ∉ st2.newUsed))).map
          (fun q => ((none : Option PromptElement),
            (some q.2 : Option PromptElement)))).filterMap Prod.fst).Perm
      (oldF.map Prod.snd)) ∧
    (((st2.pairs
      ++ (oldF.filter (fun q => decide (q.1 ∉ st2.oldUsed))).map
          (fun q => ((some q.2 : Option PromptElement), (none : Option PromptElement)))
      ++ (newF.filter (fun q => decide (q.1 ∉ st2.newUsed))).map
          (fun q => ((none : Option PromptElement),
            (some q.2 : Option PromptElement)))).filterMap Prod.snd).Perm
      (newF.map Prod.snd)) := by
  obtain ⟨h1, h2, _⟩ := hinv
  constructor
  · rw [List.filterMap_append, List.filterMap_append, filterMap_fst_removed,
      filterMap_fst_added, List.append_nil]
    refine (List.Perm.append_right _ h1).trans ?_
    exact filter_used_unused_perm st2.oldUsed oldF
  · rw [List.filterMap_append, List.filterMap_append, filterMap_snd_removed,
      filterMap_snd_added, List.append_nil]
    refine (List.Perm.append_right _ h2).trans ?_
    exact filter_used_unused_perm st2.newUsed newF

/-- C3: every non-`Whitespace` input element (old and new) appears in
exactly one aligned pair — the old components of the aligned pairs are
a permutation of the filtered old elements and likewise for the new
side, `Whitespace` elements being excluded from alignment entirely —
and the Added/Removed/Modified/Unchanged counts of the built diffs sum
to the number of aligned pairs. -/
theorem c3_alignment_totality (old new : List PromptElement) :
    (((alignElements old new).filterMap Prod.fst).Perm
        (old.filter (fun e => decide (e.type ≠ WHITESPACE)))) ∧
    (((alignElements old new).filterMap Prod.snd).Perm
        (new.filter (fun e => decide (e.type ≠ WHITESPACE)))) ∧
    (((alignElements old new).filterMap buildDiff).countP
        (fun d => decide (d.changeType = ChangeType.ADDED)) +
      ((alignElements old new).filterMap buildDiff).countP
        (fun d => decide (d.changeType = ChangeType.REMOVED)) +
      ((alignElements old new).filterMap buildDiff).countP
        (fun d => decide (d.changeType = ChangeType.MODIFIED)) +
      ((alignElements old new).filterMap buildDiff).countP
        (fun d => decide (d.changeType = ChangeType.UNCHANGED)) =
      (alignElements old new).length) := by
  have h := align_assemble (elemFilter old) (elemFilter new) _ (alignInv_final old new)
  refine ⟨?_, ?_, ?_⟩
  · have := h.1
    rw [elemFilter_map_snd] at this
    exact this
  · have := h.2
    rw [elemFilter_map_snd] at this
    exact this
  · rw [elementDiff_count_partition]
    exact filterMap_buildDiff_length _ (alignElements_ne_nonenone old new)

/-! ### Self-similarity (for C8)

For `SequenceMatcher(None, a, a)` the main loop's running best match is
always on the diagonal: `chainD` is the value the row map `j2len` holds
for column `j` after a row, every below-diagonal chain is dominated by
the diagonal chain already seen at its own row (`chainD_le_diag_col`),
and every above-diagonal chain is dominated by the diagonal chain of
the current row (`chainD_le_diag_row`), which is scanned first because
the position list is ascending. The extension loops then stretch the
diagonal best to the whole range. -/

/-- The chain value `j2len[j]` after processing `i` rows of the main
loop of `find_longest_match` on the full range (`alo = blo = 0`). -/
def chainD (a : List Char) (b2j : Char → List Nat) : Nat → Nat → Nat
  | 0, _ => 0
  | i + 1, j =>
    if j ∈ b2j (a.getD i ' ') then
      (if j = 0 then 0 else chainD a b2j i (j - 1)) + 1
    else 0

theorem chainD_succ (a : List Char) (b2j : Char → List Nat) (i j : Nat) :
    chainD a b2j (i + 1) j =
      if j ∈ b2j (a.getD i ' ') then
        (if j = 0 then 0 else chainD a b2j i (j - 1)) + 1
      else 0 := rfl

theorem chainD_le (a : List Char) (b2j : Char → List Nat) :
    ∀ i j, chainD a b2j i j ≤ i := by
  intro i
  induction i with
  | zero => intro j; simp [chainD]
  | succ i ih =>
    intro j
    simp only [chainD]
    by_cases hm : j ∈ b2j (a.getD i ' ')
    · rw [if_pos hm]
      by_cases hj : j = 0
      · simp [hj]
      · rw [if_neg hj]
        have := ih (j - 1)
        omega
    · rw [if_neg hm]
      omega

/-- Below- or on-diagonal domination: a chain ending at column `j` on
row `r ≥ j` is no longer than the diagonal chain at row `j` (for equal
sequences every chain column is also a diagonal position). -/
theorem chainD_le_diag_col (a : List Char) (b2j : Char → List Nat)
    (H1 : ∀ c j, j ∈ b2j c → j < a.length ∧ a.getD j ' ' = c)
    (H2 : ∀ c, b2j c ≠ [] → ∀ j, j < a.length → a.getD j ' ' = c → j ∈ b2j c) :
    ∀ j r, j ≤ r → chainD a b2j (r + 1) j ≤ chainD a b2j (j + 1) j := by
  intro j
  induction j with
  | zero =>
    intro r _
    simp only [chainD]
    by_cases hm : (0 : Nat) ∈ b2j (a.getD r ' ')
    · rw [if_pos hm]
      obtain ⟨hlt, hchar⟩ := H1 _ 0 hm
      have hm0 : (0 : Nat) ∈ b2j (a.getD 0 ' ') := by
        rw [hchar]
        exact hm
      rw [if_pos hm0]
      simp
    · rw [if_neg hm]
      omega
  | succ j ih =>
    intro r hjr
    rw [chainD_succ, chainD_succ]
    by_cases hm : (j + 1) ∈ b2j (a.getD r ' ')
    · rw [if_pos hm]
      obtain ⟨hlt, hchar⟩ := H1 _ (j + 1) hm
      have hmj : (j + 1) ∈ b2j (a.getD (j + 1) ' ') := by
        rw [hchar]
        exact hm
      rw [if_pos hmj]
      have hne : j + 1 ≠ 0 := Nat.succ_ne_zero j
      rw [if_neg hne, if_neg hne]
      simp only [Nat.add_sub_cancel]
      obtain ⟨r', rfl⟩ : ∃ r', r = r' + 1 := ⟨r - 1, by omega⟩
      have := ih r' (by omega)
      omega
    · rw [if_neg hm]
      omega

/-- Above-diagonal domination: a chain ending at column `j > r` on row
`r` is no longer than the diagonal chain of row `r`. -/
theorem chainD_le_diag_row (a : List Char) (b2j : Char → List Nat)
    (H1 : ∀ c j, j ∈ b2j c → j < a.length ∧ a.getD j ' ' = c)
    (H2 : ∀ c, b2j c ≠ [] → ∀ j, j < a.length → a.getD j ' ' = c → j ∈ b2j c) :
    ∀ r j, r < j → r < a.length → chainD a b2j (r + 1) j ≤ chainD a b2j (r + 1) r := by
  intro r
  induction r with
  | zero =>
    intro j hj hlen
    simp only [chainD]
    by_cases hm : j ∈ b2j (a.getD 0 ' ')
    · rw [if_pos hm]
      have hne : b2j (a.getD 0 ' ') ≠ [] := by
        intro hcon
        rw [hcon] at hm
        exact List.not_mem_nil j hm
      have hm0 : (0 : Nat) ∈ b2j (a.getD 0 ' ') := H2 _ hne 0 hlen rfl
      rw [if_pos hm0]
      have hj0 : j ≠ 0 := by omega
      simp [hj0, chainD]
    · rw [if_neg hm]
      omega
  | succ r ih =>
    intro j hj hlen
    rw [chainD_succ a b2j (r + 1) j, chainD_succ a b2j (r + 1) (r + 1)]
    by_cases hm : j ∈ b2j (a.getD (r + 1) ' ')
    · rw [if_pos hm]
      have hne : b2j (a.getD (r + 1) ' ') ≠ [] := by
        intro hcon
        rw [hcon] at hm
        exact List.not_mem_nil j hm
      have hmr : (r + 1) ∈ b2j (a.getD (r + 1) ' ') := H2 _ hne (r + 1) hlen rfl
      rw [if_pos hmr]
      have hj0 : j ≠ 0 := by omega
      have hr0 : r + 1 ≠ 0 := Nat.succ_ne_zero r
      rw [if_neg hj0, if_neg hr0]
      simp only [Nat.add_sub_cancel]
      have := ih (j - 1) (by omega) (by omega)
      omega
    · rw [if_neg hm]
      omega

theorem procJs_cons (i blo bhi : Nat) (J newJ : Nat → Nat) (j : Nat)
    (rest : List Nat) (best : Nat × Nat × Nat) :
    procJs i blo bhi J (j :: rest) newJ best =
      if j < blo then procJs i blo bhi J rest newJ best
      else if bhi ≤ j then (newJ, best)
      else
        procJs i blo bhi J rest
          (fun x => if x = j then (if j = 0 then 0 else J (j - 1)) + 1 else newJ x)
          (if best.2.2 < (if j = 0 then 0 else J (j - 1)) + 1 then
            (i + 1 - ((if j = 0 then 0 else J (j - 1)) + 1),
             j + 1 - ((if j = 0 then 0 else J (j - 1)) + 1),
             (if j = 0 then 0 else J (j - 1)) + 1)
          else best) := rfl

theorem procJs_diag (a : List Char) (b2j : Char → List Nat)
    (H1 : ∀ c, ∀ j ∈ b2j c, j < a.length ∧ a.getD j ' ' = c)
    (H2 : ∀ c, b2j c ≠ [] → ∀ j, j < a.length → a.getD j ' ' = c → j ∈ b2j c)
    (i : Nat) (hi : i < a.length)
    (J : Nat → Nat) (hJ : ∀ v, J v = chainD a b2j i v) :
    ∀ (js' : List Nat) (newJ : Nat → Nat) (bd bk : Nat),
      (∀ v ∈ js', v ∈ b2j (a.getD i ' ')) →
      js'.Pairwise (· < ·) →
      (i ∉ js' → chainD a b2j (i + 1) i ≤ bk) →
      (∀ v, (v ∈ js' → newJ v = 0) ∧ (v ∉ js' → newJ v = chainD a b2j (i + 1) v)) →
      (∀ r, r < i → chainD a b2j (r + 1) r ≤ bk) →
      bd + bk ≤ i + 1 →
      (∀ v, (procJs i 0 a.length J js' newJ (bd, bd, bk)).1 v =
        chainD a b2j (i + 1) v) ∧
      ∃ bd' bk', (procJs i 0 a.length J js' newJ (bd, bd, bk)).2 = (bd', bd', bk') ∧
        bk ≤ bk' ∧ chainD a b2j (i + 1) i ≤ bk' ∧
        (∀ r, r < i → chainD a b2j (r + 1) r ≤ bk') ∧ bd' + bk' ≤ i + 1 := by
  intro js'
  induction js' with
  | nil =>
    intro newJ bd bk hmem hsort hdiag hnewJ hC hbd
    exact ⟨fun v => (hnewJ v).2 (List.not_mem_nil v), bd, bk, rfl, le_rfl,
      hdiag (List.not_mem_nil i), hC, hbd⟩
  | cons j rest ih =>
    intro newJ bd bk hmem hsort hdiag hnewJ hC hbd
    have hjmem : j ∈ b2j (a.getD i ' ') := hmem j (List.mem_cons_self j rest)
    obtain ⟨hjlt, hjchar⟩ := H1 _ j hjmem
    have hg1 : ¬ j < 0 := Nat.not_lt_zero j
    have hg2 : ¬ a.length ≤ j := by omega
    obtain ⟨hjrest, hsort'⟩ := List.pairwise_cons.mp hsort
    have hjnotrest : j ∉ rest := fun hc => absurd (hjrest j hc) (lt_irrefl j)
    have hk : (if j = 0 then 0 else J (j - 1)) + 1 = chainD a b2j (i + 1) j := by
      rw [chainD_succ, if_pos hjmem]
      by_cases hj0 : j = 0
      · rw [if_pos hj0, if_pos hj0]
      · rw [if_neg hj0, if_neg hj0, hJ]
    have hmem' : ∀ v ∈ rest, v ∈ b2j (a.getD i ' ') :=
      fun v hv => hmem v (List.mem_cons_of_mem j hv)
    rw [procJs_cons, if_neg hg1, if_neg hg2]
    simp only [hk]
    have hKle : chainD a b2j (i + 1) j ≤ i + 1 := chainD_le a b2j (i + 1) j
    by_cases hjeq : j = i
    · subst hjeq
      by_cases hup : (bd, bd, bk).2.2 < chainD a b2j (j + 1) j
      · rw [if_pos hup]
        have hres := ih (fun x => if x = j then chainD a b2j (j + 1) j else newJ x)
          (j + 1 - chainD a b2j (j + 1) j) (chainD a b2j (j + 1) j)
          hmem' hsort' (fun _ => le_rfl)
          (by
            intro v
            constructor
            · intro hv
              have hvne : v ≠ j := fun hc => hjnotrest (hc ▸ hv)
              simp only [if_neg hvne]
              exact (hnewJ v).1 (List.mem_cons_of_mem j hv)
            · intro hv
              by_cases hvj : v = j
              · subst hvj
                simp
              · simp only [if_neg hvj]
                exact (hnewJ v).2 (by
                  rw [List.mem_cons]
                  rintro (h | h)
                  · exact hvj h
                  · exact hv h))
          (fun r hr => le_trans (hC r hr) (le_of_lt hup))
          (by omega)
        obtain ⟨hJall, bd'', bk'', heq, hge, hdg, hCle, hbdle⟩ := hres
        exact ⟨hJall, bd'', bk'', heq, le_trans (le_of_lt hup) hge, hdg, hCle, hbdle⟩
      · rw [if_neg hup]
        have hble : chainD a b2j (j + 1) j ≤ bk := by
          simp only at hup
          omega
        exact ih (fun x => if x = j then chainD a b2j (j + 1) j else newJ x) bd bk
          hmem' hsort' (fun _ => hble)
          (by
            intro v
            constructor
            · intro hv
              have hvne : v ≠ j := fun hc => hjnotrest (hc ▸ hv)
              simp only [if_neg hvne]
              exact (hnewJ v).1 (List.mem_cons_of_mem j hv)
            · intro hv
              by_cases hvj : v = j
              · subst hvj
                simp
              · simp only [if_neg hvj]
                exact (hnewJ v).2 (by
                  rw [List.mem_cons]
                  rintro (h | h)
                  · exact hvj h
                  · exact hv h))
          hC hbd
    · have hnoup : ¬ (bd, bd, bk).2.2 < chainD a b2j (i + 1) j := by
        simp only
        rcases Nat.lt_or_ge j i with hji | hji
        · have h1 := chainD_le_diag_col a b2j H1 H2 j i (le_of_lt hji)
          have h2 := hC j hji
          omega
        · have hji' : i < j := by omega
          have hinot : i ∉ j :: rest := by
            rw [List.mem_cons]
            rintro (h | h)
            · exact hjeq h.symm
            · exact absurd (hjrest i h) (by omega)
          have h1 := chainD_le_diag_row a b2j H1 H2 i j hji' hi
          have h2 := hdiag hinot
          omega
      rw [if_neg hnoup]
      have hdiag' : i ∉ rest → chainD a b2j (i + 1) i ≤ bk := by
        intro hir
        apply hdiag
        rw [List.mem_cons]
        rintro (h | h)
        · exact hjeq h.symm
        · exact hir h
      exact ih (fun x => if x = j then chainD a b2j (i + 1) j else newJ x) bd bk
        hmem' hsort' hdiag'
        (by
          intro v
          constructor
          · intro hv
            have hvne : v ≠ j := fun hc => hjnotrest (hc ▸ hv)
            simp only [if_neg hvne]
            exact (hnewJ v).1 (List.mem_cons_of_mem j hv)
          · intro hv
            by_cases hvj : v = j
            · subst hvj
              simp
            · simp only [if_neg hvj]
              exact (hnewJ v).2 (by
                rw [List.mem_cons]
                rintro (h | h)
                · exact hvj h
                · exact hv h))
        hC hbd

theorem flmLoop_diag (a : List Char) (b2j : Char → List Nat)
    (H1 : ∀ c, ∀ j ∈ b2j c, j < a.length ∧ a.getD j ' ' = c)
    (H2 : ∀ c, b2j c ≠ [] → ∀ j, j < a.length → a.getD j ' ' = c → j ∈ b2j c)
    (H3 : ∀ c, (b2j c).Pairwise (· < ·)) :
    ∀ n i (J : Nat → Nat) (bd bk : Nat), a.length - i = n → i ≤ a.length →
      (∀ v, J v = chainD a b2j i v) →
      (∀ r, r < i → chainD a b2j (r + 1) r ≤ bk) →
      bd + bk ≤ i →
      ∃ bd' bk', flmLoop a b2j a.length 0 a.length i J (bd, bd, bk) = (bd', bd', bk') ∧
        bd' + bk' ≤ a.length := by
  intro n
  induction n with
  | zero =>
    intro i J bd bk hn hile hJ hC hbd
    rw [flmLoop, if_neg (by omega : ¬ i < a.length)]
    exact ⟨bd, bk, rfl, by omega⟩
  | succ n ih =>
    intro i J bd bk hn hile hJ hC hbd
    have hlt : i < a.length := by omega
    rw [flmLoop, if_pos hlt]
    have hrow := procJs_diag a b2j H1 H2 i hlt J hJ (b2j (a.getD i ' '))
      (fun _ => 0) bd bk (fun v hv => hv) (H3 _)
      (by
        intro hnot
        rw [chainD_succ, if_neg hnot]
        omega)
      (by
        intro v
        refine ⟨fun _ => rfl, fun hv => ?_⟩
        rw [chainD_succ, if_neg hv])
      hC (by omega)
    obtain ⟨hJall, bd'', bk'', heq, hge, hdg, hCle, hbdle⟩ := hrow
    show ∃ bd' bk',
      flmLoop a b2j a.length 0 a.length (i + 1)
        (procJs i 0 a.length J (b2j (a.getD i ' ')) (fun _ => 0) (bd, bd, bk)).1
        (procJs i 0 a.length J (b2j (a.getD i ' ')) (fun _ => 0) (bd, bd, bk)).2 =
        (bd', bd', bk') ∧ bd' + bk' ≤ a.length
    rw [heq]
    refine ih (i + 1) _ bd'' bk'' (by omega) (by omega) hJall ?_ hbdle
    intro r hr
    rcases Nat.lt_or_ge r i with h | h
    · exact hCle r h
    · have : r = i := by omega
      subst this
      exact hdg

theorem extBack_diag (a : List Char) :
    ∀ bd bk, extBack a a 0 0 bd bd bk = (0, 0, bd + bk) := by
  intro bd
  induction bd with
  | zero =>
    intro bk
    rw [extBack, if_neg (by intro h; exact absurd h.1 (lt_irrefl 0))]
    rw [Nat.zero_add]
  | succ bd ih =>
    intro bk
    rw [extBack, if_pos ⟨Nat.succ_pos bd, Nat.succ_pos bd, rfl⟩]
    simp only [Nat.add_sub_cancel]
    rw [ih (bk + 1)]
    have : bd + (bk + 1) = bd + 1 + bk := by omega
    rw [this]

theorem extFwd_diag (a : List Char) :
    ∀ m bk, a.length - bk = m → bk ≤ a.length →
      extFwd a a a.length a.length 0 0 bk = a.length := by
  intro m
  induction m with
  | zero =>
    intro bk hm hle
    rw [extFwd, if_neg (by intro h; omega)]
    omega
  | succ m ih =>
    intro bk hm hle
    rw [extFwd, if_pos ⟨by omega, by omega, rfl⟩]
    exact ih (bk + 1) (by omega) (by omega)

theorem flm_self (a : List Char) (b2j : Char → List Nat)
    (H1 : ∀ c, ∀ j ∈ b2j c, j < a.length ∧ a.getD j ' ' = c)
    (H2 : ∀ c, b2j c ≠ [] → ∀ j, j < a.length → a.getD j ' ' = c → j ∈ b2j c)
    (H3 : ∀ c, (b2j c).Pairwise (· < ·)) :
    findLongestMatch a a b2j 0 a.length 0 a.length = (0, 0, a.length) := by
  obtain ⟨bd, bk, hloop, hble⟩ := flmLoop_diag a b2j H1 H2 H3 a.length 0
    (fun _ => 0) 0 0 rfl (Nat.zero_le _) (fun v => rfl)
    (fun r hr => absurd hr (Nat.not_lt_zero r)) (Nat.le_refl 0)
  show (let m := flmLoop a b2j a.length 0 a.length 0 (fun _ => 0) (0, 0, 0)
        let e := extBack a a 0 0 m.1 m.2.1 m.2.2
        (e.1, e.2.1, extFwd a a a.length a.length e.1 e.2.1 e.2.2)) = _
  rw [hloop]
  show (let e := extBack a a 0 0 bd bd bk
        (e.1, e.2.1, extFwd a a a.length a.length e.1 e.2.1 e.2.2)) = _
  rw [extBack_diag a bd bk]
  show (0, 0, extFwd a a a.length a.length 0 0 (bd + bk)) = _
  rw [extFwd_diag a (a.length - (bd + bk)) (bd + bk) rfl hble]

theorem b2jOf_mem (b : List Char) (c : Char) (j : Nat) (h : j ∈ b2jOf b c) :
    j < b.length ∧ b.getD j ' ' = c := by
  unfold b2jOf at h
  by_cases hp : 200 ≤ b.length ∧ b.length / 100 + 1 < (positionsOf b c).length
  · rw [if_pos hp] at h
    exact absurd h (List.not_mem_nil j)
  · rw [if_neg hp] at h
    unfold positionsOf at h
    rw [List.mem_filter] at h
    exact ⟨List.mem_range.mp h.1, of_decide_eq_true h.2⟩

theorem b2jOf_full (b : List Char) (c : Char) (hne : b2jOf b c ≠ [])
    (j : Nat) (hj : j < b.length) (hc : b.getD j ' ' = c) : j ∈ b2jOf b c := by
  unfold b2jOf at hne ⊢
  by_cases hp : 200 ≤ b.length ∧ b.length / 100 + 1 < (positionsOf b c).length
  · rw [if_pos hp] at hne
    exact absurd rfl hne
  · rw [if_neg hp]
    unfold positionsOf
    rw [List.mem_filter]
    exact ⟨List.mem_range.mpr hj, decide_eq_true hc⟩

theorem b2jOf_sorted (b : List Char) (c : Char) :
    (b2jOf b c).Pairwise (· < ·) := by
  unfold b2jOf
  by_cases hp : 200 ≤ b.length ∧ b.length / 100 + 1 < (positionsOf b c).length
  · rw [if_pos hp]
    exact List.Pairwise.nil
  · rw [if_neg hp]
    unfold positionsOf
    exact (List.pairwise_lt_range b.length).sublist (List.filter_sublist _)

theorem seqRatio_self (a : List Char) (ha : a ≠ []) : seqRatio a a = 1 := by
  have hn : a.length ≠ 0 := by
    intro h
    exact ha (List.length_eq_zero.mp h)
  have hflm := flm_self a (b2jOf a) (b2jOf_mem a) (b2jOf_full a) (b2jOf_sorted a)
  have hmb : mbTotal a a (b2jOf a) 0 a.length 0 a.length = a.length := by
    rw [mbTotal]
    simp only [hflm]
    rw [dif_neg (by simpa using hn)]
    rw [dif_neg (by simp), dif_neg (by simp)]
    omega
  unfold seqRatio calcRatio
  rw [hmb, if_neg (by omega)]
  have hpos : (0 : ℚ) < (a.length : ℚ) := by
    exact_mod_cast Nat.pos_of_ne_zero hn
  rw [div_eq_one_iff_eq (by push_cast; linarith)]
  push_cast
  ring

theorem computeSimilarity_self (a : List Char) : computeSimilarity a a = 1 := by
  cases a with
  | nil => rfl
  | cons c t =>
    unfold computeSimilarity
    rw [if_neg (by simp), if_neg (by simp)]
    exact seqRatio_self (c :: t) (by simp)

/-- C8: the similarity ratio is always within `[0, 1]`; it is exactly
`1.0` on equal inputs (in particular on two empty inputs) and exactly
`0.0` when exactly one input is empty. -/
theorem c8_similarity_properties :
    (∀ a b : List Char, 0 ≤ computeSimilarity a b ∧ computeSimilarity a b ≤ 1) ∧
    (∀ a : List Char, computeSimilarity a a = 1) ∧
    computeSimilarity [] [] = 1 ∧
    (∀ x : List Char, x ≠ [] →
      computeSimilarity x [] = 0 ∧ computeSimilarity [] x = 0) := by
  refine ⟨computeSimilarity_mem, computeSimilarity_self, rfl, ?_⟩
  intro x hx
  cases x with
  | nil => exact absurd rfl hx
  | cons c t => exact ⟨rfl, rfl⟩

/-- Witness for C8: the one-character text against the empty text
scores `0.0` on both sides. -/
theorem c8_similarity_properties_witness :
    computeSimilarity "x".data [] = 0 ∧ computeSimilarity [] "x".data = 0 :=
  c8_similarity_properties.2.2.2 "x".data (by decide)

end PromptDiff
